import Mathlib

/-!
Verification development for the go-SponsorBlockTV per-device session engine.

The definitions below are a shallow embedding of the Go sources:
  - the segment merge engine (internal/pkg/api/api_helpers.go, processSegments),
  - the TTL cache (internal/pkg/api/cache.go),
  - the skip scheduler (cmd/iSponsorBlockTV/main.go, timeToSegment and skip),
  - the playback event handling (cmd/iSponsorBlockTV/main.go, handleEvent and
    HandlePlaybackStateChange),
  - the lounge session task management (ytlounge, SubscribeMonitored, watchdog,
    ProcessEvent).

float64 times are embedded as rationals; all operations used by the code on
times are order comparisons, subtraction and the constant 1, which are exact
over the rationals.  Go slices become lists, Go maps become association lists
kept in insertion order, and wall-clock time is passed explicitly to each
operation that reads it.
-/

namespace SBTV

/-! ## Segment merge engine (api_helpers.go, processSegments, lines 542-617)

A RawSegment is one element of the typedSegments slice of processSegments:
the record decoded from one raw SponsorBlock segment, with Segment[0] as
startQ, Segment[1] as endQ, UUID as uuid and the integer Locked as locked.
A Segment is the output type (api.Segment): Start, End, UUIDs. -/

structure RawSegment where
  startQ : ℚ
  endQ : ℚ
  uuid : String
  locked : Int
deriving DecidableEq, Repr

structure Segment where
  startQ : ℚ
  endQ : ℚ
  uuids : List String
deriving DecidableEq, Repr

/-- Stable insertion into a list sorted by the strict comparison lt: the new
element is placed before the first element not strictly below it.  This models
one placement decision of the sort used by processSegments (Go sort.Slice with
a strict less function); the model fixes the unspecified tie order to be
stable. -/
def insertIntoSorted {α : Type} (lt : α → α → Bool) (x : α) : List α → List α
  | [] => [x]
  | y :: ys => if lt y x then y :: insertIntoSorted lt x ys else x :: y :: ys

/-- Sort by the strict comparison lt (stable insertion sort); models the two
sort.Slice calls in processSegments. -/
def sortByLt {α : Type} (lt : α → α → Bool) : List α → List α
  | [] => []
  | x :: xs => insertIntoSorted lt x (sortByLt lt xs)

/-- Comparison of the first sort.Slice call: ascending by Segment[1] (end). -/
def ltByEnd (a b : RawSegment) : Bool := decide (a.endQ < b.endQ)

/-- Comparison of the second sort.Slice call: ascending by Segment[0] (start). -/
def ltByStart (a b : RawSegment) : Bool := decide (a.startQ < b.startQ)

/-- The inner j loop of the end extension pass, for one fixed i: starting from
the current end e of segment i, scan all segments j in ascending order and, if
seg j starts no later than e and ends no earlier than e, raise e to the end of
seg j.  The element at position i itself is scanned with its stored value; as e
can only grow past the stored end, that self comparison assigns the value e
already has, exactly as in the Go code where seg i is read live. -/
def endStep (e : ℚ) (s : RawSegment) : ℚ := if s.startQ ≤ e ∧ e ≤ s.endQ then s.endQ else e

def endExtInner (cur : List RawSegment) (e : ℚ) : ℚ := cur.foldl endStep e

/-- The outer i loop of the end extension pass, ascending.  doneRev holds the
already processed prefix (reversed), the second argument the rest; cur
reconstructs the full current slice, as the Go inner loop ranges over the whole
slice while earlier entries have already been updated in place. -/
def extendEndsGo : List RawSegment → List RawSegment → List RawSegment
  | doneRev, [] => doneRev.reverse
  | doneRev, x :: rest =>
    let cur := doneRev.reverse ++ x :: rest
    extendEndsGo ({ x with endQ := endExtInner cur x.endQ } :: doneRev) rest

/-- End extension pass of processSegments (the first nested for loop). -/
def extendEnds (l : List RawSegment) : List RawSegment := extendEndsGo [] l

/-- The inner j loop of the start extension pass, descending over the whole
slice (the Go loop counts j down): starting from the current start sv of
segment i, if seg j brackets sv, lower sv to the start of seg j.  As for
endExtInner, the self comparison is a no-op in both the live and the stored
reading. -/
def startStep (sv : ℚ) (s : RawSegment) : ℚ := if s.startQ ≤ sv ∧ sv ≤ s.endQ then s.startQ else sv

def startExtInner (cur : List RawSegment) (sv : ℚ) : ℚ := cur.reverse.foldl startStep sv

/-- The outer i loop of the start extension pass, descending.  The first
argument holds the already processed suffix, the second the still unprocessed
prefix in reversed order, so its head is the next index to process; cur
reconstructs the full current slice. -/
def extendStartsGo : List RawSegment → List RawSegment → List RawSegment
  | done, [] => done
  | done, x :: revRest =>
    let cur := revRest.reverse ++ x :: done
    extendStartsGo ({ x with startQ := startExtInner cur x.startQ } :: done) revRest

/-- Start extension pass of processSegments (the second nested for loop). -/
def extendStarts (l : List RawSegment) : List RawSegment := extendStartsGo [] l.reverse

/-- One step of the final combining walk of processSegments.  The accumulator
keeps the built Go slice reversed (head is the last appended segment).  When
the incoming record starts less than one second after the end of the last
segment, the two are combined: start of the last, end of the incoming record,
and the uuid of the incoming record prepended to the uuids of the last, which
is the Go append of the single new uuid with the old uuids (in that order). -/
def combineStep (acc : List Segment) (s : RawSegment) : List Segment :=
  match acc with
  | [] => [{ startQ := s.startQ, endQ := s.endQ, uuids := [s.uuid] }]
  | last :: rest =>
    if s.startQ - last.endQ < 1 then
      { startQ := last.startQ, endQ := s.endQ, uuids := s.uuid :: last.uuids } :: rest
    else
      { startQ := s.startQ, endQ := s.endQ, uuids := [s.uuid] } :: last :: rest

/-- The final walk of processSegments over the sorted and extended records. -/
def combineSegments (l : List RawSegment) : List Segment := (l.foldl combineStep []).reverse

/-- The ignoreTTL accumulation of the final walk: conjunction of locked == 1
over all records, starting from true. -/
def ignoreTTLOf (l : List RawSegment) : Bool := l.foldl (fun b s => b && (s.locked == 1)) true

/-- processSegments (api_helpers.go lines 542-617), after JSON decoding: sort
the records ascending by end, run the end extension pass, re-sort ascending by
start, run the start extension pass, then walk the list combining records less
than one second apart; the second component is ignoreTTL (the permanent flag),
the conjunction of locked over all records. -/
def processSegments (l : List RawSegment) : List Segment × Bool :=
  let t4 := extendStarts (sortByLt ltByStart (extendEnds (sortByLt ltByEnd l)))
  (combineSegments t4, ignoreTTLOf t4)

/-- Re-reading a merge output as raw records, for feeding the merge its own
output: one record per uuid of each output segment, in stored order, carrying
the segment interval, with locked 1 exactly when the output was flagged
permanent. -/
def embedSegments (out : List Segment) (p : Bool) : List RawSegment :=
  (out.map (fun seg =>
    seg.uuids.map (fun u => RawSegment.mk seg.startQ seg.endQ u (if p then 1 else 0)))).flatten

/-! ## Playback state and the skip scheduler (cmd/iSponsorBlockTV/main.go) -/

inductive PlaybackStateType where
  | unknown
  | playing
  | paused
  | buffering
deriving DecidableEq, Repr

structure PlaybackStateM where
  videoID : String
  currentTime : ℚ
  state : PlaybackStateType
deriving DecidableEq, Repr

/-- The selection loop of timeToSegment (main.go lines 138-161): scan the
segments in list order and take the first whose within-start-range or
beyond-current-position condition holds; the second component is
startNextSegment, the position used for the delay computation. -/
def timeToSegmentSelect (segments : List Segment) (position : ℚ) : Option (Segment × ℚ) :=
  match segments with
  | [] => none
  | seg :: rest =>
    let isWithinStartRange : Bool :=
      decide (position < 1) && decide (seg.endQ > 1) &&
      decide (seg.startQ ≤ position) && decide (position < seg.endQ)
    let isBeyondCurrentPosition : Bool := decide (seg.startQ > position)
    if isWithinStartRange then some (seg, position)
    else if isBeyondCurrentPosition then some (seg, seg.startQ)
    else timeToSegmentSelect rest position

/-- timeToSegment including the delay arithmetic: when a segment is selected,
the skip call receives timeToNext = startNext - position - elapsed - offset,
the segment end, and its uuids. -/
def timeToSegment (segments : List Segment) (position elapsed offset : ℚ) :
    Option (ℚ × ℚ × List String) :=
  (timeToSegmentSelect segments position).map
    (fun se => (se.2 - position - elapsed - offset, se.1.endQ, se.1.uuids))

/-! ## The firing path (main.go, skip, lines 164-180)

skip executes, in order: time.Sleep of the computed delay, the log line
announcing the seek, starting a goroutine that calls MarkViewedSegments, and
wg.Wait() which blocks until that goroutine finishes.  Each statement is one
effect below; sendCommand is the effect a remote command through the lounge
client would be (as SkipAd and Mute issue), so that its absence is
expressible. -/

inductive SkipEffect where
  | sleep : ℚ → SkipEffect
  | logSeekMessage : ℚ → SkipEffect
  | goMarkViewed : List String → SkipEffect
  | waitGroupWait : SkipEffect
  | sendCommand : String → SkipEffect
deriving DecidableEq, Repr

def SkipEffect.isSendCommand : SkipEffect → Bool
  | .sendCommand _ => true
  | _ => false

/-- The effect sequence of skip(timeTo, position, uuids): sleep, log, spawn the
mark-viewed goroutine, wait for it.  No remote command is issued anywhere in
the body. -/
def skipEffects (timeTo position : ℚ) (uuids : List String) : List SkipEffect :=
  [SkipEffect.sleep timeTo, SkipEffect.logSeekMessage position,
   SkipEffect.goMarkViewed uuids, SkipEffect.waitGroupWait]

/-! ## Task handling of the device listener (main.go, HandlePlaybackStateChange)

HandlePlaybackStateChange cancels the previous Task handle, stores a fresh
one, and spawns go processPlaybackState(state, time.Now()).  The spawned
goroutine receives only the playback state and the start time; neither
processPlaybackState nor skip reads the Task context, so the run is recorded
here by exactly those two arguments. -/

structure TaskM where
  cancelled : Bool
deriving DecidableEq, Repr

structure ListenerM where
  task : Option TaskM
  priorTasks : List TaskM
  spawnedRuns : List (PlaybackStateM × ℚ)
deriving DecidableEq, Repr

def ListenerM.init : ListenerM := { task := none, priorTasks := [], spawnedRuns := [] }

/-- HandlePlaybackStateChange (main.go lines 107-116): cancel the previous
task handle if present, install a fresh uncancelled handle, and spawn the
processing goroutine with its two arguments. -/
def handlePlaybackStateChange (d : ListenerM) (st : PlaybackStateM) (now : ℚ) : ListenerM :=
  let prior := match d.task with
    | some t => { t with cancelled := true } :: d.priorTasks
    | none => d.priorTasks
  { task := some { cancelled := false },
    priorTasks := prior,
    spawnedRuns := d.spawnedRuns ++ [(st, now)] }

/-- Whether a spawned processPlaybackState run reaches the skip call: the
state is playing, the fetched segment list is nonempty, and the timeToSegment
scan selects a segment.  A function of the run arguments and the segment list
only: the Go goroutine has no access to the Task context. -/
def runFires (segments : List Segment) (st : PlaybackStateM) : Bool :=
  st.state == PlaybackStateType.playing && !segments.isEmpty &&
    (timeToSegmentSelect segments st.currentTime).isSome

/-! ## Go runtime aborts observable in event handling -/

inductive GoPanic where
  | indexOutOfRange
  | typeAssertion
  | nilFuncCall
deriving DecidableEq, Repr

/-! ## Lounge session task state (ytlounge, SubscribeMonitored / watchdog /
ProcessEvent)

subscribeTask and watchdogTask hold the context cancel functions of the
subscription and watchdog goroutines (none models the nil func).  Invoking a
cancel function deactivates the corresponding context; subscribeAttempts
counts subscriptions started. -/

structure YtState where
  subscribeTask : Option Unit
  subscriptionActive : Bool
  watchdogTask : Option Unit
  watchdogActive : Bool
  subscribeAttempts : Nat
deriving DecidableEq, Repr

def YtState.idle : YtState :=
  { subscribeTask := none, subscriptionActive := false,
    watchdogTask := none, watchdogActive := false, subscribeAttempts := 0 }

/-- SubscribeMonitored: cancel any previous tasks, then start a subscription
goroutine and a watchdog goroutine, storing both cancel handles. -/
def subscribeMonitored (y : YtState) : YtState :=
  { subscribeTask := some (), subscriptionActive := true,
    watchdogTask := some (), watchdogActive := true,
    subscribeAttempts := y.subscribeAttempts + 1 }

/-- The watchdog ticker body (lines 118-123): on a tick, if the stored
subscription cancel handle is non-nil, invoke it and set it to nil.  No new
subscription is started here; subscribeAttempts is untouched. -/
def watchdogFire (y : YtState) : YtState :=
  if y.subscribeTask.isSome then
    { y with subscriptionActive := false, subscribeTask := none }
  else y

/-- The first statements of ProcessEvent (lines 137-140, under the comment
restart watchdog): if the watchdog cancel handle is non-nil, invoke it, which
cancels the watchdog context and terminates its goroutine.  The handle is not
cleared and no new watchdog is started. -/
def processEventWatchdogPart (y : YtState) : YtState :=
  if y.watchdogTask.isSome then { y with watchdogActive := false } else y

/-- One entry of the decoded devices array of a loungeStatus event, reduced to
the fields the handler reads: the type string, and the clientName from the
decoded deviceInfo.  clientName is none when any of the guarded steps fails
(deviceInfo missing or not a string, its JSON not decodable, clientName
missing or not a string); all those checks use the comma-ok form or check the
decode error, so a failure just skips the device. -/
structure LoungeDevice where
  dtype : String
  clientName : Option String
deriving DecidableEq, Repr

/-- The loungeStatus branch of ProcessEvent (lines 204-229) after JSON
decoding: scan the devices; on the first LOUNGE_SCREEN device whose clientName
is in the blacklist, invoke the stored subscription cancel handle and return.
The handle is invoked without a nil check: with no handle stored the call is a
nil function invocation, a Go runtime panic. -/
def processLoungeStatus (blacklist : List String) (y : YtState) :
    List LoungeDevice → Except GoPanic YtState
  | [] => .ok y
  | d :: rest =>
    if d.dtype = "LOUNGE_SCREEN" then
      match d.clientName with
      | some cn =>
        if cn ∈ blacklist then
          match y.subscribeTask with
          | some _ => .ok { y with subscriptionActive := false }
          | none => .error GoPanic.nilFuncCall
        else processLoungeStatus blacklist y rest
      | none => processLoungeStatus blacklist y rest
    else processLoungeStatus blacklist y rest

/-! ## Dynamic event payloads (main.go, handleEvent) -/

/-- A decoded JSON value as Go interface values: the shapes handleEvent
inspects. -/
inductive JValue where
  | str : String → JValue
  | num : ℚ → JValue
  | jbool : Bool → JValue
  | obj : List (String × JValue) → JValue
  | null
deriving Repr

/-- Go map indexing: a missing key yields the nil interface value. -/
def jlookup (fields : List (String × JValue)) (k : String) : Option JValue :=
  (fields.find? (fun kv => kv.1 == k)).map (fun kv => kv.2)

/-- handleEvent (main.go lines 90-104).  args[0] on an empty slice is an index
out of range panic.  The assertion of args[0] to a map uses the comma-ok form,
so a non-map payload is silently skipped.  data[videoId].(string) does not use
the comma-ok form: a missing key (nil) or a non-string value panics.  The
currentTime assertion uses the comma-ok form and leaves 0 on failure. -/
def handleEventMain (eventType : String) (args : List JValue) :
    Except GoPanic (Option PlaybackStateM) :=
  if eventType = "onStateChange" then
    match args with
    | [] => .error GoPanic.indexOutOfRange
    | a0 :: _ =>
      match a0 with
      | .obj data =>
        match jlookup data "videoId" with
        | some (.str vid) =>
          let ct : ℚ := match jlookup data "currentTime" with
            | some (.num q) => q
            | _ => 0
          .ok (some { videoID := vid, currentTime := ct, state := PlaybackStateType.playing })
        | _ => .error GoPanic.typeAssertion
      | _ => .ok none
  else .ok none

/-! ## The TTL cache (internal/pkg/api/cache.go)

The Go map of entries is modeled as an association list with unique keys kept
in insertion order; Go map iteration order is not specified, so statements
proved below are chosen not to depend on the scan order except through the
tie-breaking of equal expirations, which the model fixes to first scanned.
time.Now() is passed explicitly; After is the strict order.  The zero Time of
the oldestTime accumulator is modeled by Option none. -/

structure CEntry (V : Type) where
  value : V
  expiration : ℚ
deriving DecidableEq, Repr

structure CacheState (V : Type) where
  entries : List (String × CEntry V)
  ttl : ℚ
  maxSize : Nat
deriving DecidableEq, Repr

def lookupKey {V : Type} (k : String) (entries : List (String × CEntry V)) : Option (CEntry V) :=
  (entries.find? (fun kv => kv.1 == k)).map (fun kv => kv.2)

def eraseKey {V : Type} (k : String) (entries : List (String × CEntry V)) :
    List (String × CEntry V) :=
  entries.filter (fun kv => kv.1 != k)

/-- Go map assignment: replace in place when the key exists, append
otherwise. -/
def setAssoc {V : Type} (k : String) (e : CEntry V) (entries : List (String × CEntry V)) :
    List (String × CEntry V) :=
  if entries.any (fun kv => kv.1 == k) then
    entries.map (fun kv => if kv.1 == k then (k, e) else kv)
  else entries ++ [(k, e)]

/-- The entries surviving the expired-removal loop of Set: those whose
expiration is not strictly before now. -/
def liveEntries {V : Type} (now : ℚ) (entries : List (String × CEntry V)) :
    List (String × CEntry V) :=
  entries.filter (fun kv => !(decide (kv.2.expiration < now)))

/-- The oldest-entry scan of Set: the first entry seen, then any entry with
strictly earlier expiration replaces the candidate. -/
def oldestEntry {V : Type} (entries : List (String × CEntry V)) : Option (String × CEntry V) :=
  entries.foldl
    (fun acc kv =>
      match acc with
      | none => some kv
      | some best => if kv.2.expiration < best.2.expiration then some kv else acc)
    none

/-- Cache.Get (cache.go lines 31-47): a missing key is not found; an entry
whose expiration is strictly before now is removed and not found; otherwise
the value is returned and the cache is unchanged, in particular no recency
information is updated. -/
def cacheGet {V : Type} (now : ℚ) (k : String) (c : CacheState V) :
    Option V × CacheState V :=
  match lookupKey k c.entries with
  | none => (none, c)
  | some e =>
    if e.expiration < now then (none, { c with entries := eraseKey k c.entries })
    else (some e.value, c)

/-- Cache.Set (cache.go lines 50-78): drop expired entries; if the cache is
still at or above capacity, delete the entry with the earliest expiration;
then store the new entry with expiration now + ttl. -/
def cacheSet {V : Type} (now : ℚ) (k : String) (v : V) (c : CacheState V) : CacheState V :=
  let live := liveEntries now c.entries
  let afterEvict :=
    if c.maxSize ≤ live.length then
      match oldestEntry live with
      | some kv => eraseKey kv.1 live
      | none => live
    else live
  { c with entries := setAssoc k { value := v, expiration := now + c.ttl } afterEvict }

/-! ## Relations used by the statements about the merge engine -/

/-- Separation of two output segments by the merge gap: the second starts at
least one second after the first ends. -/
def sepR (a b : Segment) : Prop := a.endQ + 1 ≤ b.startQ

/-- Pointwise effect of the start extension pass on one record: everything but
the start is unchanged, the start can only move down. -/
def relS (x y : RawSegment) : Prop :=
  y.uuid = x.uuid ∧ y.locked = x.locked ∧ y.endQ = x.endQ ∧ y.startQ ≤ x.startQ

/-- Pointwise effect of the end extension pass on one record: everything but
the end is unchanged, the end can only move up. -/
def relE (x y : RawSegment) : Prop :=
  y.uuid = x.uuid ∧ y.locked = x.locked ∧ y.startQ = x.startQ ∧ x.endQ ≤ y.endQ

/-! # Theorems -/

/-! ## Claim C1: the firing path of skip -/

/-- C1.  The claim states that a fired skip issues a seek-to-targetEnd command
and reports the fired uuids asynchronously without blocking the firing path.
The code does neither: evaluating the effect sequence of skip at a fired skip
(delay 0, target end 20, uuids u1) shows that skip sleeps, logs, starts the
mark-viewed goroutine and then immediately blocks on wg.Wait() until the
report finishes, and that no remote command of any kind is issued. -/
theorem skip_fires_without_seek_and_blocks_on_report :
    skipEffects 0 20 ["u1"] =
      [SkipEffect.sleep 0, SkipEffect.logSeekMessage 20,
       SkipEffect.goMarkViewed ["u1"], SkipEffect.waitGroupWait] ∧
    (∀ e ∈ skipEffects 0 20 ["u1"], e.isSendCommand = false) ∧
    SkipEffect.waitGroupWait ∈ skipEffects 0 20 ["u1"] := by
  refine ⟨rfl, ?_, by simp [skipEffects]⟩
  intro e he
  fin_cases he <;> rfl

/-! ## Claim C3: the watchdog lifecycle -/

/-- C3.  The claim states that every inbound event resets the 35 second
watchdog and that a watchdog expiry tears the subscription down and makes
exactly one fresh subscription attempt.  Evaluating the model of the code from
the state right after SubscribeMonitored shows instead: processing any event
invokes the watchdog cancel handle, which terminates the watchdog goroutine
outright (watchdogActive becomes false and nothing re-arms it), and a watchdog
expiry cancels the subscription handle and clears it while starting no new
subscription (subscribeAttempts is unchanged). -/
theorem watchdog_event_cancels_and_fire_makes_no_attempt :
    (processEventWatchdogPart (subscribeMonitored YtState.idle)).watchdogActive = false ∧
    processEventWatchdogPart (subscribeMonitored YtState.idle) =
      { subscribeMonitored YtState.idle with watchdogActive := false } ∧
    watchdogFire (subscribeMonitored YtState.idle) =
      { subscribeMonitored YtState.idle with subscriptionActive := false, subscribeTask := none } ∧
    (watchdogFire (subscribeMonitored YtState.idle)).subscribeAttempts =
      (subscribeMonitored YtState.idle).subscribeAttempts := by
  refine ⟨rfl, rfl, rfl, rfl⟩

/-! ## Claim C4: malformed event payloads -/

/-- C4.  The claim states that a malformed or incomplete payload makes event
processing ignore the single event and never terminate abnormally.  Evaluating
handleEvent of the device listener shows three fatal runtime panics: an empty
argument list hits args[0] (index out of range), and a payload object whose
videoId is absent or not a string hits the non-comma-ok string type assertion. -/
theorem handleEvent_malformed_payload_panics :
    handleEventMain "onStateChange" [] = Except.error GoPanic.indexOutOfRange ∧
    handleEventMain "onStateChange" [JValue.obj []] = Except.error GoPanic.typeAssertion ∧
    handleEventMain "onStateChange" [JValue.obj [("videoId", JValue.num 3)]] =
      Except.error GoPanic.typeAssertion := by
  refine ⟨rfl, rfl, rfl⟩

/-! ## Claim C6: single-flight skip scheduling -/

/-- C6.  The claim states that two playback-position events in quick
succession leave exactly one pending skip task, the one from the later event.
In the code, HandlePlaybackStateChange cancels the previous Task handle, but
the spawned goroutine receives only the playback state and the start time and
never consults the Task context, so cancellation cannot reach it.  Evaluating
the model after two events shows the first handle flagged cancelled yet both
spawned runs still live, and both reach the skip call for a segment list with
an upcoming segment. -/
theorem two_playback_events_leave_two_live_skip_runs :
    let segs : List Segment := [{ startQ := 5, endQ := 8, uuids := ["u1"] }]
    let st1 : PlaybackStateM := { videoID := "v", currentTime := 0, state := .playing }
    let st2 : PlaybackStateM := { videoID := "v", currentTime := 1, state := .playing }
    let d2 := handlePlaybackStateChange (handlePlaybackStateChange ListenerM.init st1 0) st2 1
    d2.spawnedRuns.length = 2 ∧
    d2.priorTasks = [{ cancelled := true }] ∧
    d2.task = some { cancelled := false } ∧
    (∀ r ∈ d2.spawnedRuns, runFires segs r.1 = true) := by
  refine ⟨rfl, rfl, rfl, ?_⟩
  intro r hr
  fin_cases hr <;> rfl

/-! ## Claim C10: the blacklisted-client disconnect path -/

/-- C10.  After the watchdog has fired, the stored subscription cancel handle
is nil; a loungeStatus event that lists a blacklisted LOUNGE_SCREEN client
then drives ProcessEvent into invoking that nil handle, a nil function call
panic; with a non-nil handle the same event disconnects the session normally.
The theorem states all three parts for any state, blacklist and device list
containing a blacklisted screen. -/
theorem loungeStatus_blacklisted_nil_handle (blacklist : List String) (y : YtState)
    (devs : List LoungeDevice)
    (hb : ∃ d ∈ devs, d.dtype = "LOUNGE_SCREEN" ∧
      ∃ cn, d.clientName = some cn ∧ cn ∈ blacklist) :
    ((subscribeMonitored y).subscribeTask.isSome ∧
      (watchdogFire (subscribeMonitored y)).subscribeTask = none) ∧
    (y.subscribeTask = none →
      processLoungeStatus blacklist y devs = Except.error GoPanic.nilFuncCall) ∧
    (y.subscribeTask.isSome →
      processLoungeStatus blacklist y devs =
        Except.ok { y with subscriptionActive := false }) := by
  refine ⟨⟨rfl, rfl⟩, ?_, ?_⟩
  · intro hnone
    induction devs with
    | nil => exact absurd hb (by simp)
    | cons d rest ih =>
      obtain ⟨d0, hd0, htype, cn, hcn, hbl⟩ := hb
      rcases List.mem_cons.mp hd0 with h | h
      · subst h
        simp [processLoungeStatus, htype, hcn, hbl, hnone]
      · by_cases ht : d.dtype = "LOUNGE_SCREEN"
        · cases hcn2 : d.clientName with
          | none =>
            simpa [processLoungeStatus, ht, hcn2] using ih ⟨d0, h, htype, cn, hcn, hbl⟩
          | some cn2 =>
            by_cases hbl2 : cn2 ∈ blacklist
            · simp [processLoungeStatus, ht, hcn2, hbl2, hnone]
            · simpa [processLoungeStatus, ht, hcn2, hbl2] using ih ⟨d0, h, htype, cn, hcn, hbl⟩
        · simpa [processLoungeStatus, ht] using ih ⟨d0, h, htype, cn, hcn, hbl⟩
  · intro hsome
    obtain ⟨u, hu⟩ := Option.isSome_iff_exists.mp hsome
    induction devs with
    | nil => exact absurd hb (by simp)
    | cons d rest ih =>
      obtain ⟨d0, hd0, htype, cn, hcn, hbl⟩ := hb
      rcases List.mem_cons.mp hd0 with h | h
      · subst h
        simp [processLoungeStatus, htype, hcn, hbl, hu]
      · by_cases ht : d.dtype = "LOUNGE_SCREEN"
        · cases hcn2 : d.clientName with
          | none =>
            simpa [processLoungeStatus, ht, hcn2] using ih ⟨d0, h, htype, cn, hcn, hbl⟩
          | some cn2 =>
            by_cases hbl2 : cn2 ∈ blacklist
            · simp [processLoungeStatus, ht, hcn2, hbl2, hu]
            · simpa [processLoungeStatus, ht, hcn2, hbl2] using ih ⟨d0, h, htype, cn, hcn, hbl⟩
        · simpa [processLoungeStatus, ht] using ih ⟨d0, h, htype, cn, hcn, hbl⟩

/-- Witness for C10 at a concrete state and event: with the handle already
cleared by the watchdog, the blacklisted-client disconnect is the nil call
panic. -/
theorem loungeStatus_blacklisted_nil_handle_witness :
    processLoungeStatus ["BadClient"]
      { subscribeTask := none, subscriptionActive := false, watchdogTask := some (),
        watchdogActive := true, subscribeAttempts := 1 }
      [{ dtype := "LOUNGE_SCREEN", clientName := some "BadClient" }] =
      Except.error GoPanic.nilFuncCall :=
  (loungeStatus_blacklisted_nil_handle ["BadClient"]
    { subscribeTask := none, subscriptionActive := false, watchdogTask := some (),
      watchdogActive := true, subscribeAttempts := 1 }
    [{ dtype := "LOUNGE_SCREEN", clientName := some "BadClient" }]
    ⟨{ dtype := "LOUNGE_SCREEN", clientName := some "BadClient" },
      by simp, rfl, "BadClient", rfl, by simp⟩).2.1 rfl

/-! ## Claim C5: cache eviction -/

/-- C5 counterexample.  The claim predicts least-recently-used eviction with
get refreshing recency.  Concrete trace on the code (capacity 2, ttl 100):
set A at t 0, set B at t 1, get A at t 2 (now A is the most recently used and
B the least recently used), then set C at t 3.  The claim predicts B is
evicted and A retained; the code evicts the entry with the earliest
expiration, which is A, and it retains B. -/
theorem cache_lru_claim_counterexample :
    let c0 : CacheState Nat := { entries := [], ttl := 100, maxSize := 2 }
    let c1 := cacheSet 0 "A" 10 c0
    let c2 := cacheSet 1 "B" 20 c1
    let gA := cacheGet 2 "A" c2
    let c4 := cacheSet 3 "C" 30 gA.2
    gA.1 = some 10 ∧
    (cacheGet 4 "A" c4).1 = none ∧
    (cacheGet 4 "B" c4).1 = some 20 ∧
    (cacheGet 4 "C" c4).1 = some 30 := by
  intro c0 c1 c2 gA c4
  have h1 : c1 = { entries := [("A", { value := 10, expiration := 100 })], ttl := 100, maxSize := 2 } := by
    show cacheSet 0 "A" 10 c0 = _
    unfold cacheSet
    dsimp only [c0]
    norm_num [liveEntries, oldestEntry, setAssoc, eraseKey, List.filter, bne, List.any]
  have h2 : c2 = { entries := [("A", { value := 10, expiration := 100 }), ("B", { value := 20, expiration := 101 })], ttl := 100, maxSize := 2 } := by
    show cacheSet 1 "B" 20 c1 = _
    rw [h1]
    unfold cacheSet
    dsimp only
    have hlive : liveEntries 1 [("A", ({ value := 10, expiration := 100 } : CEntry Nat))] = [("A", { value := 10, expiration := 100 })] := rfl
    rw [hlive]
    simp only [List.length_cons, List.length_nil]
    norm_num [oldestEntry, setAssoc, eraseKey, List.filter, bne, List.any]
    simp
  have h3 : gA = (some 10, c2) := by
    show cacheGet 2 "A" c2 = _
    conv_lhs => rw [h2]
    rw [h2]
    rfl
  have h3b : gA.2 = c2 := by rw [h3]
  have h4 : c4 = { entries := [("B", { value := 20, expiration := 101 }), ("C", { value := 30, expiration := 103 })], ttl := 100, maxSize := 2 } := by
    show cacheSet 3 "C" 30 gA.2 = _
    rw [h3b, h2]
    unfold cacheSet
    dsimp only
    have hlive : liveEntries 3 [("A", ({ value := 10, expiration := 100 } : CEntry Nat)), ("B", { value := 20, expiration := 101 })] = [("A", { value := 10, expiration := 100 }), ("B", { value := 20, expiration := 101 })] := rfl
    have hold : oldestEntry [("A", ({ value := 10, expiration := 100 } : CEntry Nat)), ("B", { value := 20, expiration := 101 })] = some ("A", { value := 10, expiration := 100 }) := rfl
    rw [hlive, hold]
    simp only [List.length_cons, List.length_nil]
    norm_num [eraseKey, setAssoc, List.filter, bne, List.any]
    simp
  refine ⟨by rw [h3], ?_, ?_, ?_⟩
  · rw [h4]; rfl
  · rw [h4]; rfl
  · rw [h4]; rfl

/-- The oldest-entry fold of Set, specified: starting from a candidate, it
returns an entry of minimal expiration among the candidate and the scanned
entries. -/
theorem oldestEntry_fold_spec {V : Type} :
    ∀ (l : List (String × CEntry V)) (b : String × CEntry V),
      ∃ r, l.foldl
          (fun acc kv =>
            match acc with
            | none => some kv
            | some best => if kv.2.expiration < best.2.expiration then some kv else acc)
          (some b) = some r ∧
        (r = b ∨ r ∈ l) ∧ r.2.expiration ≤ b.2.expiration ∧
        ∀ kv ∈ l, r.2.expiration ≤ kv.2.expiration := by
  intro l
  induction l with
  | nil => exact fun b => ⟨b, rfl, Or.inl rfl, le_refl _, by simp⟩
  | cons kv l ih =>
    intro b
    by_cases h : kv.2.expiration < b.2.expiration
    · obtain ⟨r, hr, hmem, hle, hall⟩ := ih kv
      refine ⟨r, ?_, ?_, ?_, ?_⟩
      · simpa [h] using hr
      · rcases hmem with h1 | h1
        · exact Or.inr (by simp [h1])
        · exact Or.inr (List.mem_cons_of_mem _ h1)
      · exact le_trans hle (le_of_lt h)
      · intro kv2 hkv2
        rcases List.mem_cons.mp hkv2 with h2 | h2
        · exact h2 ▸ hle
        · exact hall kv2 h2
    · obtain ⟨r, hr, hmem, hle, hall⟩ := ih b
      refine ⟨r, ?_, ?_, hle, ?_⟩
      · simpa [h] using hr
      · rcases hmem with h1 | h1
        · exact Or.inl h1
        · exact Or.inr (List.mem_cons_of_mem _ h1)
      · intro kv2 hkv2
        rcases List.mem_cons.mp hkv2 with h2 | h2
        · exact h2 ▸ le_trans hle (not_lt.mp h)
        · exact hall kv2 h2

/-- Looking a key up after erasing it finds nothing. -/
theorem lookupKey_eraseKey {V : Type} (k : String) (l : List (String × CEntry V)) :
    lookupKey k (eraseKey k l) = none := by
  induction l with
  | nil => rfl
  | cons kv l ih =>
    by_cases h : kv.1 = k
    · simp only [eraseKey, lookupKey] at ih ⊢
      simp [h]
      try exact ih
    · simp only [eraseKey, lookupKey] at ih ⊢
      simp [h]
      try exact ih

/-- Replacing the entry stored under one key does not affect lookups of a
different key. -/
theorem lookupKey_map_replace {V : Type} (k k0 : String) (e : CEntry V) (hne : k0 ≠ k) :
    ∀ l : List (String × CEntry V),
      lookupKey k0 (l.map (fun kv => if kv.1 == k then (k, e) else kv)) = lookupKey k0 l := by
  intro l
  induction l with
  | nil => rfl
  | cons kv l ih =>
    by_cases h : kv.1 = k
    · have h2 : (k == k0) = false := by simp [Ne.symm hne]
      have h3 : (kv.1 == k0) = false := by simp [h, Ne.symm hne]
      simp only [List.map_cons, lookupKey, List.find?_cons] at ih ⊢
      simp [h, h2, h3] at ih ⊢
      exact ih
    · by_cases h0 : kv.1 = k0
      · have h2 : (kv.1 == k0) = true := by simp [h0]
        simp only [List.map_cons, lookupKey, List.find?_cons]
        simp [h, h2]
      · have h2 : (kv.1 == k0) = false := by simp [h0]
        simp only [List.map_cons, lookupKey, List.find?_cons] at ih ⊢
        simp [h, h2] at ih ⊢
        exact ih

/-- Appending an entry under one key does not affect lookups of a different
key. -/
theorem lookupKey_append_single {V : Type} (k k0 : String) (e : CEntry V) (hne : k0 ≠ k) :
    ∀ l : List (String × CEntry V),
      lookupKey k0 (l ++ [(k, e)]) = lookupKey k0 l := by
  intro l
  induction l with
  | nil =>
    have h2 : (k == k0) = false := by simp [Ne.symm hne]
    simp only [List.nil_append, lookupKey, List.find?_cons, h2]
  | cons kv l ih =>
    by_cases h0 : kv.1 = k0
    · have h2 : (kv.1 == k0) = true := by simp [h0]
      simp only [List.cons_append, lookupKey, List.find?_cons, h2]
    · have h2 : (kv.1 == k0) = false := by simp [h0]
      simp only [List.cons_append, lookupKey, List.find?_cons, h2]
      exact ih

/-- Storing under one key does not affect lookups of a different key. -/
theorem lookupKey_setAssoc_ne {V : Type} (k k0 : String) (e : CEntry V)
    (l : List (String × CEntry V)) (hne : k0 ≠ k) :
    lookupKey k0 (setAssoc k e l) = lookupKey k0 l := by
  unfold setAssoc
  by_cases hany : l.any (fun kv => kv.1 == k)
  · simp only [hany, if_true]
    exact lookupKey_map_replace k k0 e hne l
  · simp only [hany, if_false]
    exact lookupKey_append_single k k0 e hne l

/-- C5 amended.  What the code does on an insert at or beyond capacity: among
the entries surviving expiry removal, the evicted entry is one of minimal
expiration, that is the least recently inserted or refreshed entry, since
every set stamps expiration now + ttl; and get never refreshes an entry or
otherwise changes the cache when it finds an unexpired entry, so access by
get has no influence on which entry is evicted. -/
theorem cache_set_evicts_earliest_expiration {V : Type} (c : CacheState V) (now : ℚ)
    (k : String) (v : V)
    (hfull : c.maxSize ≤ (liveEntries now c.entries).length)
    (hne : liveEntries now c.entries ≠ []) :
    (∃ ok oe, oldestEntry (liveEntries now c.entries) = some (ok, oe) ∧
      ((ok, oe)) ∈ liveEntries now c.entries ∧
      (∀ kv ∈ liveEntries now c.entries, oe.expiration ≤ kv.2.expiration) ∧
      (ok ≠ k → lookupKey ok (cacheSet now k v c).entries = none)) ∧
    (∀ k0 e, lookupKey k0 c.entries = some e → ¬ e.expiration < now →
      cacheGet now k0 c = (some e.value, c)) := by
  constructor
  · obtain ⟨b, rest, hcons⟩ := List.exists_cons_of_ne_nil hne
    obtain ⟨r, hr, hmem, hle, hall⟩ := oldestEntry_fold_spec rest b
    have hold : oldestEntry (liveEntries now c.entries) = some r := by
      rw [hcons]; exact hr
    have hrmem : r ∈ liveEntries now c.entries := by
      rw [hcons]
      rcases hmem with h | h
      · exact h ▸ List.mem_cons_self _ _
      · exact List.mem_cons_of_mem _ h
    refine ⟨r.1, r.2, hold, by simpa using hrmem, ?_, ?_⟩
    · intro kv hkv
      rw [hcons] at hkv
      rcases List.mem_cons.mp hkv with h | h
      · exact h ▸ hle
      · exact hall kv h
    · intro hkne
      show lookupKey r.1 (setAssoc k _ _) = none
      rw [lookupKey_setAssoc_ne k r.1 _ _ hkne]
      simp only [hfull, if_true, hold]
      exact lookupKey_eraseKey r.1 _
  · intro k0 e hlook hexp
    simp [cacheGet, hlook, hexp]

/-- Witness for C5 amended at a concrete full cache: inserting B evicts the
minimal-expiration entry A, and a get of an unexpired entry leaves the cache
unchanged. -/
theorem cache_set_evicts_earliest_expiration_witness :
    lookupKey "A" (cacheSet 1 "B" 7
      ({ entries := [("A", { value := 42, expiration := 10 })], ttl := 5, maxSize := 1 } :
        CacheState Nat)).entries = none ∧
    cacheGet 1 "A"
      ({ entries := [("A", { value := 42, expiration := 10 })], ttl := 5, maxSize := 1 } :
        CacheState Nat) =
      (some 42,
        { entries := [("A", { value := 42, expiration := 10 })], ttl := 5, maxSize := 1 }) := by
  have h := cache_set_evicts_earliest_expiration
    ({ entries := [("A", { value := 42, expiration := 10 })], ttl := 5, maxSize := 1 } :
      CacheState Nat) 1 "B" 7 (by decide) (by decide)
  obtain ⟨⟨ok, oe, hold, hmem, hmin, hdel⟩, hget⟩ := h
  have hok : ok = "A" := by
    have : some (ok, oe) = some ("A", { value := 42, expiration := 10 }) := by
      rw [← hold]; rfl
    simpa using congrArg (fun o => o.map Prod.fst) this
  refine ⟨?_, ?_⟩
  · exact hok ▸ hdel (by rw [hok]; decide)
  · exact hget "A" { value := 42, expiration := 10 } rfl (by norm_num)

/-! ## Sorting lemmas for the merge pipeline -/

theorem insertIntoSorted_perm {α : Type} (lt : α → α → Bool) (x : α) :
    ∀ l : List α, List.Perm (insertIntoSorted lt x l) (x :: l) := by
  intro l
  induction l with
  | nil => exact List.Perm.refl _
  | cons y ys ih =>
    cases h : lt y x with
    | true =>
      simp only [insertIntoSorted, h, if_true]
      exact (ih.cons y).trans (List.Perm.swap x y ys)
    | false =>
      simp only [insertIntoSorted, h]
      exact List.Perm.refl _

theorem sortByLt_perm {α : Type} (lt : α → α → Bool) :
    ∀ l : List α, List.Perm (sortByLt lt l) l := by
  intro l
  induction l with
  | nil => exact List.Perm.refl _
  | cons x xs ih =>
    exact (insertIntoSorted_perm lt x (sortByLt lt xs)).trans (ih.cons x)

theorem insertIntoSorted_pairwise {α : Type} (lt : α → α → Bool)
    (hasym : ∀ a b, lt a b = true → lt b a = false)
    (htrans : ∀ a b c, lt a b = false → lt b c = false → lt a c = false)
    (x : α) : ∀ l : List α, List.Pairwise (fun a b => lt b a = false) l →
      List.Pairwise (fun a b => lt b a = false) (insertIntoSorted lt x l) := by
  intro l
  induction l with
  | nil => intro _; simp [insertIntoSorted]
  | cons y ys ih =>
    intro hp
    rcases List.pairwise_cons.mp hp with ⟨hy, hys⟩
    cases h : lt y x with
    | true =>
      simp only [insertIntoSorted, h, if_true]
      refine List.pairwise_cons.mpr ⟨?_, ih hys⟩
      intro z hz
      rcases List.mem_cons.mp ((insertIntoSorted_perm lt x ys).mem_iff.mp hz) with hzx | hzys
      · exact hzx ▸ hasym y x h
      · exact hy z hzys
    | false =>
      simp only [insertIntoSorted, h]
      refine List.pairwise_cons.mpr ⟨?_, hp⟩
      intro z hz
      rcases List.mem_cons.mp hz with hzy | hzys
      · exact hzy ▸ h
      · exact htrans z y x (hy z hzys) h

theorem sortByLt_pairwise {α : Type} (lt : α → α → Bool)
    (hasym : ∀ a b, lt a b = true → lt b a = false)
    (htrans : ∀ a b c, lt a b = false → lt b c = false → lt a c = false) :
    ∀ l : List α, List.Pairwise (fun a b => lt b a = false) (sortByLt lt l) := by
  intro l
  induction l with
  | nil => simp [sortByLt]
  | cons x xs ih => exact insertIntoSorted_pairwise lt hasym htrans x _ ih

theorem sortByLt_eq_self {α : Type} (lt : α → α → Bool) :
    ∀ l : List α, List.Chain' (fun a b => lt b a = false) l → sortByLt lt l = l := by
  intro l
  induction l with
  | nil => intro _; rfl
  | cons x xs ih =>
    intro hc
    have hxs := hc.tail
    show insertIntoSorted lt x (sortByLt lt xs) = x :: xs
    rw [ih hxs]
    cases xs with
    | nil => rfl
    | cons y ys =>
      have hxy : lt y x = false := List.chain'_cons.mp hc |>.1
      simp [insertIntoSorted, hxy]

/-! ## Monotonicity lemmas for the extension folds -/

theorem startStep_le (sv : ℚ) (s : RawSegment) : startStep sv s ≤ sv := by
  unfold startStep
  split
  · exact (by assumption : s.startQ ≤ sv ∧ sv ≤ s.endQ).1
  · exact le_refl sv

theorem foldl_startStep_le : ∀ (l : List RawSegment) (sv : ℚ), l.foldl startStep sv ≤ sv := by
  intro l
  induction l with
  | nil => intro sv; exact le_refl sv
  | cons s l ih =>
    intro sv
    exact le_trans (ih (startStep sv s)) (startStep_le sv s)

theorem startStep_mono {a b : ℚ} (s : RawSegment) (h : a ≤ b) :
    startStep a s ≤ startStep b s := by
  unfold startStep
  by_cases hb : s.startQ ≤ b ∧ b ≤ s.endQ
  · by_cases ha : s.startQ ≤ a ∧ a ≤ s.endQ
    · simp [ha, hb]
    · simp only [ha, hb, if_true, if_false]
      have : ¬ s.startQ ≤ a := by
        intro hsa
        exact ha ⟨hsa, le_trans h hb.2⟩
      exact le_of_lt (lt_of_not_le this)
  · by_cases ha : s.startQ ≤ a ∧ a ≤ s.endQ
    · simp only [ha, hb, if_true, if_false]
      exact le_trans ha.1 h
    · simp [ha, hb, h]

theorem foldl_startStep_mono : ∀ (l : List RawSegment) {a b : ℚ}, a ≤ b →
    l.foldl startStep a ≤ l.foldl startStep b := by
  intro l
  induction l with
  | nil => intro a b h; exact h
  | cons s l ih =>
    intro a b h
    exact ih (startStep_mono s h)

theorem startStep_elem_mono {m : ℚ} {a b : RawSegment}
    (hs : b.startQ ≤ a.startQ) (he : b.endQ = a.endQ) : startStep m b ≤ startStep m a := by
  unfold startStep
  by_cases hma : a.startQ ≤ m ∧ m ≤ a.endQ
  · have hmb : b.startQ ≤ m ∧ m ≤ b.endQ := ⟨le_trans hs hma.1, he ▸ hma.2⟩
    simp [hma, hmb, hs]
  · by_cases hmb : b.startQ ≤ m ∧ m ≤ b.endQ
    · simp only [hma, hmb, if_true, if_false]
      exact hmb.1
    · simp [hma, hmb]

theorem foldl_startStep_replace (pre post : List RawSegment) {a b : RawSegment} (x : ℚ)
    (hs : b.startQ ≤ a.startQ) (he : b.endQ = a.endQ) :
    (pre ++ b :: post).foldl startStep x ≤ (pre ++ a :: post).foldl startStep x := by
  rw [List.foldl_append, List.foldl_append]
  show (b :: post).foldl startStep (pre.foldl startStep x) ≤
    (a :: post).foldl startStep (pre.foldl startStep x)
  show post.foldl startStep (startStep (pre.foldl startStep x) b) ≤
    post.foldl startStep (startStep (pre.foldl startStep x) a)
  exact foldl_startStep_mono post (startStep_elem_mono hs he)

theorem startExtInner_le (cur : List RawSegment) (sv : ℚ) : startExtInner cur sv ≤ sv :=
  foldl_startStep_le cur.reverse sv

theorem startExtInner_mono (cur : List RawSegment) {a b : ℚ} (h : a ≤ b) :
    startExtInner cur a ≤ startExtInner cur b :=
  foldl_startStep_mono cur.reverse h

theorem startExtInner_replace (pre post : List RawSegment) {a b : RawSegment} (x : ℚ)
    (hs : b.startQ ≤ a.startQ) (he : b.endQ = a.endQ) :
    startExtInner (pre ++ b :: post) x ≤ startExtInner (pre ++ a :: post) x := by
  unfold startExtInner
  have hb : (pre ++ b :: post).reverse = post.reverse ++ b :: pre.reverse := by
    simp
  have ha : (pre ++ a :: post).reverse = post.reverse ++ a :: pre.reverse := by
    simp
  rw [hb, ha]
  exact foldl_startStep_replace post.reverse pre.reverse x hs he

theorem endStep_ge (e : ℚ) (s : RawSegment) : e ≤ endStep e s := by
  unfold endStep
  split
  · exact (by assumption : s.startQ ≤ e ∧ e ≤ s.endQ).2
  · exact le_refl e

theorem endExtInner_ge : ∀ (cur : List RawSegment) (e : ℚ), e ≤ endExtInner cur e := by
  intro cur
  induction cur with
  | nil => intro e; exact le_refl e
  | cons s l ih =>
    intro e
    exact le_trans (endStep_ge e s) (ih (endStep e s))

/-! ## Pointwise shape of the extension passes -/

theorem forall₂_proj_eq {α β : Type} {R : α → α → Prop} (f : α → β)
    (hf : ∀ x y, R x y → f y = f x) :
    ∀ {l l' : List α}, List.Forall₂ R l l' → l'.map f = l.map f := by
  intro l l' h
  induction h with
  | nil => rfl
  | cons hxy _ ih => simp [ih, hf _ _ hxy]

theorem forall₂_mem_right {α : Type} {R : α → α → Prop} :
    ∀ {l l' : List α}, List.Forall₂ R l l' → ∀ y ∈ l', ∃ x ∈ l, R x y := by
  intro l l' h
  induction h with
  | nil => intro y hy; exact absurd hy (by simp)
  | cons hxy _ ih =>
    intro y hy
    rcases List.mem_cons.mp hy with h1 | h1
    · exact ⟨_, List.mem_cons_self _ _, h1 ▸ hxy⟩
    · obtain ⟨x, hx, hr⟩ := ih y h1
      exact ⟨x, List.mem_cons_of_mem _ hx, hr⟩

theorem forall₂_length_eq {α : Type} {R : α → α → Prop} :
    ∀ {l l' : List α}, List.Forall₂ R l l' → l.length = l'.length := by
  intro l l' h
  induction h with
  | nil => rfl
  | cons _ _ ih => simp [ih]

theorem extendEndsGo_spec : ∀ (rest doneRev : List RawSegment),
    ∃ proc, extendEndsGo doneRev rest = doneRev.reverse ++ proc ∧
      List.Forall₂ relE rest proc := by
  intro rest
  induction rest with
  | nil =>
    intro doneRev
    exact ⟨[], by simp [extendEndsGo], List.Forall₂.nil⟩
  | cons x rest ih =>
    intro doneRev
    obtain ⟨proc, heq, hf⟩ :=
      ih ({ x with endQ := endExtInner (doneRev.reverse ++ x :: rest) x.endQ } :: doneRev)
    refine ⟨{ x with endQ := endExtInner (doneRev.reverse ++ x :: rest) x.endQ } :: proc, ?_, ?_⟩
    · show extendEndsGo _ _ = _
      rw [extendEndsGo, heq]
      simp
    · exact List.Forall₂.cons ⟨rfl, rfl, rfl, endExtInner_ge _ _⟩ hf

theorem extendEnds_spec (l : List RawSegment) : List.Forall₂ relE l (extendEnds l) := by
  obtain ⟨proc, heq, hf⟩ := extendEndsGo_spec l []
  have : extendEnds l = proc := by
    unfold extendEnds
    rw [heq]
    rfl
  exact this ▸ hf

theorem extendStartsGo_spec : ∀ (revLeft done : List RawSegment),
    ∃ proc, extendStartsGo done revLeft = proc ++ done ∧
      List.Forall₂ relS revLeft.reverse proc := by
  intro revLeft
  induction revLeft with
  | nil =>
    intro done
    exact ⟨[], rfl, List.Forall₂.nil⟩
  | cons x revRest ih =>
    intro done
    obtain ⟨proc, heq, hf⟩ :=
      ih ({ x with startQ := startExtInner (revRest.reverse ++ x :: done) x.startQ } :: done)
    refine ⟨proc ++ [{ x with startQ := startExtInner (revRest.reverse ++ x :: done) x.startQ }],
      ?_, ?_⟩
    · show extendStartsGo _ _ = _
      rw [extendStartsGo, heq]
      simp
    · rw [List.reverse_cons]
      exact List.rel_append hf
        (List.Forall₂.cons ⟨rfl, rfl, rfl, startExtInner_le _ _⟩ List.Forall₂.nil)

theorem extendStarts_spec (l : List RawSegment) : List.Forall₂ relS l (extendStarts l) := by
  obtain ⟨proc, heq, hf⟩ := extendStartsGo_spec l.reverse []
  have h2 : extendStarts l = proc := by
    unfold extendStarts
    rw [heq]
    simp
  rw [List.reverse_reverse] at hf
  exact h2 ▸ hf

/-! ## The start extension pass preserves sortedness by start

The key argument: when index i is processed, its final start is the inner fold
of its original start over the current slice; processing index i-1 afterwards
folds a smaller starting value (the list was sorted) over a slice that differs
only at position i, where the start got smaller and the end is unchanged, and
both changes can only lower the fold result, so the final starts stay in
order. -/

theorem extendStartsGo_sorted :
    ∀ (revLeft done : List RawSegment),
      List.Pairwise (fun a b : RawSegment => a.startQ ≤ b.startQ) revLeft.reverse →
      List.Pairwise (fun a b : RawSegment => a.startQ ≤ b.startQ) done →
      (∀ x, revLeft.head? = some x → ∀ d, done.head? = some d →
        ∀ z : ℚ, z ≤ x.startQ → startExtInner (revLeft.reverse ++ done) z ≤ d.startQ) →
      List.Pairwise (fun a b : RawSegment => a.startQ ≤ b.startQ) (extendStartsGo done revLeft) := by
  intro revLeft
  induction revLeft with
  | nil =>
    intro done _ hdone _
    exact hdone
  | cons x revRest ih =>
    intro done hrev hdone hlink
    rw [List.reverse_cons] at hrev
    have hrevRest : List.Pairwise (fun a b : RawSegment => a.startQ ≤ b.startQ)
        revRest.reverse := (List.pairwise_append.mp hrev).1
    have hcross : ∀ w ∈ revRest.reverse, w.startQ ≤ x.startQ := by
      intro w hw
      exact (List.pairwise_append.mp hrev).2.2 w hw x (by simp)
    set xv := startExtInner (revRest.reverse ++ x :: done) x.startQ with hxv
    set x2 : RawSegment := { x with startQ := xv } with hx2
    show List.Pairwise _ (extendStartsGo (x2 :: done) revRest)
    refine ih (x2 :: done) hrevRest ?_ ?_
    · refine List.pairwise_cons.mpr ⟨?_, hdone⟩
      intro d hd
      cases done with
      | nil => exact absurd hd (by simp)
      | cons d0 ds =>
        have hx2d0 : x2.startQ ≤ d0.startQ := by
          have := hlink x rfl d0 rfl x.startQ (le_refl _)
          have harr : (x :: revRest).reverse ++ d0 :: ds = revRest.reverse ++ x :: d0 :: ds := by
            simp
          rw [harr] at this
          exact this
        rcases List.mem_cons.mp hd with h1 | h1
        · exact h1 ▸ hx2d0
        · exact le_trans hx2d0 ((List.pairwise_cons.mp hdone).1 d h1)
    · intro w hw d hd z hz
      have hdx2 : x2 = d := by simpa using hd
      subst hdx2
      have hwmem : w ∈ revRest.reverse := by
        cases revRest with
        | nil => simp at hw
        | cons w0 ws =>
          have hww : w0 = w := by simpa using hw
          subst hww
          simp
      have hwx : w.startQ ≤ x.startQ := hcross w hwmem
      have hzx : z ≤ x.startQ := le_trans hz hwx
      have step1 : startExtInner (revRest.reverse ++ x2 :: done) z ≤
          startExtInner (revRest.reverse ++ x2 :: done) x.startQ :=
        startExtInner_mono _ hzx
      have step2 : startExtInner (revRest.reverse ++ x2 :: done) x.startQ ≤
          startExtInner (revRest.reverse ++ x :: done) x.startQ :=
        startExtInner_replace revRest.reverse done x.startQ
          (show x2.startQ ≤ x.startQ from startExtInner_le _ _) rfl
      exact le_trans step1 step2

theorem extendStarts_sorted (l : List RawSegment)
    (h : List.Pairwise (fun a b : RawSegment => a.startQ ≤ b.startQ) l) :
    List.Pairwise (fun a b : RawSegment => a.startQ ≤ b.startQ) (extendStarts l) := by
  unfold extendStarts
  refine extendStartsGo_sorted l.reverse [] ?_ List.Pairwise.nil ?_
  · rw [List.reverse_reverse]
    exact h
  · intro x _ d hd
    simp at hd

/-! ## The combining walk -/

theorem combineFold_spec :
    ∀ (t : List RawSegment) (acc : List Segment),
      (∀ r ∈ t, r.startQ ≤ r.endQ) →
      List.Pairwise (fun a b : RawSegment => a.startQ ≤ b.startQ) t →
      List.Chain' (fun a b : Segment => b.endQ + 1 ≤ a.startQ) acc →
      (∀ x ∈ acc, x.startQ ≤ x.endQ) →
      (∀ x ∈ acc, x.uuids ≠ []) →
      (∀ x ∈ acc, ∀ r ∈ t, x.startQ ≤ r.startQ) →
      List.Chain' (fun a b : Segment => b.endQ + 1 ≤ a.startQ) (t.foldl combineStep acc) ∧
      (∀ x ∈ t.foldl combineStep acc, x.startQ ≤ x.endQ) ∧
      (∀ x ∈ t.foldl combineStep acc, x.uuids ≠ []) ∧
      List.Perm (((t.foldl combineStep acc).map Segment.uuids).flatten)
        ((t.map RawSegment.uuid) ++ (acc.map Segment.uuids).flatten) ∧
      (t.foldl combineStep acc = [] → acc = [] ∧ t = []) := by
  intro t
  induction t with
  | nil =>
    intro acc _ _ hchain hwfa hne _
    exact ⟨hchain, hwfa, hne, by simp, fun h => ⟨h, rfl⟩⟩
  | cons s t ih =>
    intro acc hwf hsort hchain hwfa hne hle
    have hwf_t : ∀ r ∈ t, r.startQ ≤ r.endQ := fun r hr => hwf r (List.mem_cons_of_mem _ hr)
    have hwf_s : s.startQ ≤ s.endQ := hwf s (List.mem_cons_self _ _)
    have hsort_t := (List.pairwise_cons.mp hsort).2
    have hst : ∀ r ∈ t, s.startQ ≤ r.startQ := (List.pairwise_cons.mp hsort).1
    show _ ∧ _ ∧ _ ∧
      List.Perm (((t.foldl combineStep (combineStep acc s)).map Segment.uuids).flatten) _ ∧ _
    have key : List.Chain' (fun a b : Segment => b.endQ + 1 ≤ a.startQ) (combineStep acc s) ∧
        (∀ x ∈ combineStep acc s, x.startQ ≤ x.endQ) ∧
        (∀ x ∈ combineStep acc s, x.uuids ≠ []) ∧
        ((combineStep acc s).map Segment.uuids).flatten =
          s.uuid :: (acc.map Segment.uuids).flatten ∧
        (∀ x ∈ combineStep acc s, ∀ r ∈ t, x.startQ ≤ r.startQ) ∧
        combineStep acc s ≠ [] := by
      cases acc with
      | nil =>
        refine ⟨by simp [combineStep], ?_, ?_, by simp [combineStep], ?_, by simp [combineStep]⟩
        · intro x hx
          simp only [combineStep, List.mem_singleton] at hx
          rw [hx]
          exact hwf_s
        · intro x hx
          simp only [combineStep, List.mem_singleton] at hx
          rw [hx]
          simp
        · intro x hx r hr
          simp only [combineStep, List.mem_singleton] at hx
          rw [hx]
          exact hst r hr
      | cons last rest =>
        by_cases hcomb : s.startQ - last.endQ < 1
        · have hlast_le_s : last.startQ ≤ s.startQ :=
            hle last (List.mem_cons_self _ _) s (List.mem_cons_self _ _)
          have hcs : combineStep (last :: rest) s =
              { startQ := last.startQ, endQ := s.endQ, uuids := s.uuid :: last.uuids } :: rest := by
            simp [combineStep, hcomb]
          rw [hcs]
          refine ⟨?_, ?_, ?_, ?_, ?_, by simp⟩
          · cases rest with
            | nil => simp
            | cons r2 rs =>
              refine List.chain'_cons.mpr ⟨?_, hchain.tail⟩
              exact (List.chain'_cons.mp hchain).1
          · intro x hx
            rcases List.mem_cons.mp hx with h1 | h1
            · rw [h1]
              show last.startQ ≤ s.endQ
              exact le_trans hlast_le_s hwf_s
            · exact hwfa x (List.mem_cons_of_mem _ h1)
          · intro x hx
            rcases List.mem_cons.mp hx with h1 | h1
            · rw [h1]; simp
            · exact hne x (List.mem_cons_of_mem _ h1)
          · simp
          · intro x hx r hr
            rcases List.mem_cons.mp hx with h1 | h1
            · rw [h1]
              show last.startQ ≤ r.startQ
              exact hle last (List.mem_cons_self _ _) r (List.mem_cons_of_mem _ hr)
            · exact hle x (List.mem_cons_of_mem _ h1) r (List.mem_cons_of_mem _ hr)
        · have hsep : last.endQ + 1 ≤ s.startQ := by linarith [not_lt.mp hcomb]
          have hcs : combineStep (last :: rest) s =
              { startQ := s.startQ, endQ := s.endQ, uuids := [s.uuid] } :: last :: rest := by
            simp [combineStep, hcomb]
          rw [hcs]
          refine ⟨?_, ?_, ?_, by simp, ?_, by simp⟩
          · exact List.chain'_cons.mpr ⟨hsep, hchain⟩
          · intro x hx
            rcases List.mem_cons.mp hx with h1 | h1
            · rw [h1]; exact hwf_s
            · exact hwfa x h1
          · intro x hx
            rcases List.mem_cons.mp hx with h1 | h1
            · rw [h1]; simp
            · exact hne x h1
          · intro x hx r hr
            rcases List.mem_cons.mp hx with h1 | h1
            · rw [h1]
              exact hst r hr
            · exact hle x h1 r (List.mem_cons_of_mem _ hr)
    obtain ⟨k1, k2, k3, k4, k5, k6⟩ := key
    obtain ⟨c1, c2, c3, c4, c5⟩ := ih (combineStep acc s) hwf_t hsort_t k1 k2 k3 k5
    refine ⟨c1, c2, c3, ?_, ?_⟩
    · refine c4.trans ?_
      rw [k4]
      have h2 : (s :: t).map RawSegment.uuid ++ (acc.map Segment.uuids).flatten =
          s.uuid :: (t.map RawSegment.uuid ++ (acc.map Segment.uuids).flatten) := by simp
      rw [h2]
      exact List.perm_middle
    · intro hres
      have := (c5 hres).1
      exact absurd this k6

/-- Separation plus well-formed intervals upgrade the consecutive gap to a
pairwise gap. -/
theorem chain_sep_wf_pairwise : ∀ (l : List Segment), List.Chain' sepR l →
    (∀ x ∈ l, x.startQ ≤ x.endQ) → List.Pairwise sepR l := by
  intro l
  induction l with
  | nil => intro _ _; exact List.Pairwise.nil
  | cons a rest ih =>
    intro hc hwf
    have hrest := ih hc.tail (fun x hx => hwf x (List.mem_cons_of_mem _ hx))
    refine List.pairwise_cons.mpr ⟨?_, hrest⟩
    intro b hb
    cases rest with
    | nil => exact absurd hb (by simp)
    | cons h0 tail =>
      have hah0 : sepR a h0 := (List.chain'_cons.mp hc).1
      rcases List.mem_cons.mp hb with h1 | h1
      · exact h1 ▸ hah0
      · have hh0b : sepR h0 b := (List.pairwise_cons.mp hrest).1 b h1
        have hwfh0 : h0.startQ ≤ h0.endQ := hwf h0 (by simp)
        unfold sepR at hah0 hh0b ⊢
        linarith

theorem combineSegments_spec (t : List RawSegment)
    (hwf : ∀ r ∈ t, r.startQ ≤ r.endQ)
    (hsort : List.Pairwise (fun a b : RawSegment => a.startQ ≤ b.startQ) t) :
    List.Pairwise sepR (combineSegments t) ∧
    (∀ x ∈ combineSegments t, x.startQ ≤ x.endQ) ∧
    (∀ x ∈ combineSegments t, x.uuids ≠ []) ∧
    List.Perm (((combineSegments t).map Segment.uuids).flatten) (t.map RawSegment.uuid) ∧
    (combineSegments t = [] → t = []) := by
  obtain ⟨c1, c2, c3, c4, c5⟩ := combineFold_spec t []
    hwf hsort List.chain'_nil (by simp) (by simp) (by simp)
  have hrev : combineSegments t = (t.foldl combineStep []).reverse := rfl
  have hchain : List.Chain' sepR (combineSegments t) := by
    rw [hrev]
    exact List.chain'_reverse.mpr c1
  have hwfo : ∀ x ∈ combineSegments t, x.startQ ≤ x.endQ := by
    intro x hx
    rw [hrev, List.mem_reverse] at hx
    exact c2 x hx
  have hneo : ∀ x ∈ combineSegments t, x.uuids ≠ [] := by
    intro x hx
    rw [hrev, List.mem_reverse] at hx
    exact c3 x hx
  refine ⟨chain_sep_wf_pairwise _ hchain hwfo, hwfo, hneo, ?_, ?_⟩
  · rw [hrev]
    have hmapped : ((t.foldl combineStep []).reverse.map Segment.uuids).flatten.Perm
        (((t.foldl combineStep []).map Segment.uuids).flatten) := by
      rw [List.map_reverse]
      exact (List.reverse_perm _).flatten
    refine hmapped.trans (c4.trans ?_)
    simp
  · intro h
    rw [hrev] at h
    have : t.foldl combineStep [] = [] := by
      have := congrArg List.reverse h
      simpa using this
    exact (c5 this).2

/-! ## Conversions between the Bool comparisons and order relations -/

theorem ltByStart_asym : ∀ a b : RawSegment, ltByStart a b = true → ltByStart b a = false := by
  intro a b h
  have := of_decide_eq_true h
  exact decide_eq_false (not_lt.mpr (le_of_lt this))

theorem ltByStart_negtrans : ∀ a b c : RawSegment,
    ltByStart a b = false → ltByStart b c = false → ltByStart a c = false := by
  intro a b c h1 h2
  have h1' := not_lt.mp (of_decide_eq_false h1)
  have h2' := not_lt.mp (of_decide_eq_false h2)
  exact decide_eq_false (not_lt.mpr (le_trans h2' h1'))

theorem ltByEnd_asym : ∀ a b : RawSegment, ltByEnd a b = true → ltByEnd b a = false := by
  intro a b h
  have := of_decide_eq_true h
  exact decide_eq_false (not_lt.mpr (le_of_lt this))

theorem ltByEnd_negtrans : ∀ a b c : RawSegment,
    ltByEnd a b = false → ltByEnd b c = false → ltByEnd a c = false := by
  intro a b c h1 h2
  have h1' := not_lt.mp (of_decide_eq_false h1)
  have h2' := not_lt.mp (of_decide_eq_false h2)
  exact decide_eq_false (not_lt.mpr (le_trans h2' h1'))

theorem sortByStart_sorted (l : List RawSegment) :
    List.Pairwise (fun a b : RawSegment => a.startQ ≤ b.startQ) (sortByLt ltByStart l) := by
  refine (sortByLt_pairwise ltByStart ltByStart_asym ltByStart_negtrans l).imp ?_
  intro a b h
  exact not_lt.mp (of_decide_eq_false h)

/-! ## Invariant transport through the pipeline -/

theorem pipeline_t4_spec (l : List RawSegment) (hwf : ∀ r ∈ l, r.startQ ≤ r.endQ) :
    (∀ r ∈ extendStarts (sortByLt ltByStart (extendEnds (sortByLt ltByEnd l))),
        r.startQ ≤ r.endQ) ∧
    List.Pairwise (fun a b : RawSegment => a.startQ ≤ b.startQ)
      (extendStarts (sortByLt ltByStart (extendEnds (sortByLt ltByEnd l)))) ∧
    (extendStarts (sortByLt ltByStart (extendEnds (sortByLt ltByEnd l)))).map RawSegment.uuid
        = (sortByLt ltByStart (extendEnds (sortByLt ltByEnd l))).map RawSegment.uuid ∧
    List.Perm ((sortByLt ltByStart (extendEnds (sortByLt ltByEnd l))).map RawSegment.uuid)
      (l.map RawSegment.uuid) ∧
    (extendStarts (sortByLt ltByStart (extendEnds (sortByLt ltByEnd l)))).length = l.length := by
  have hp1 : List.Perm (sortByLt ltByEnd l) l := sortByLt_perm ltByEnd l
  have hwf1 : ∀ r ∈ sortByLt ltByEnd l, r.startQ ≤ r.endQ := by
    intro r hr
    exact hwf r (hp1.mem_iff.mp hr)
  have hf2 := extendEnds_spec (sortByLt ltByEnd l)
  have hwf2 : ∀ r ∈ extendEnds (sortByLt ltByEnd l), r.startQ ≤ r.endQ := by
    intro r hr
    obtain ⟨x, hx, hrel⟩ := forall₂_mem_right hf2 r hr
    have := hwf1 x hx
    rw [hrel.2.2.1]
    exact le_trans this hrel.2.2.2
  have hmap2 : (extendEnds (sortByLt ltByEnd l)).map RawSegment.uuid =
      (sortByLt ltByEnd l).map RawSegment.uuid :=
    forall₂_proj_eq RawSegment.uuid (fun x y h => h.1) hf2
  have hp3 : List.Perm (sortByLt ltByStart (extendEnds (sortByLt ltByEnd l)))
      (extendEnds (sortByLt ltByEnd l)) := sortByLt_perm ltByStart _
  have hwf3 : ∀ r ∈ sortByLt ltByStart (extendEnds (sortByLt ltByEnd l)),
      r.startQ ≤ r.endQ := by
    intro r hr
    exact hwf2 r (hp3.mem_iff.mp hr)
  have hsort3 := sortByStart_sorted (extendEnds (sortByLt ltByEnd l))
  have hf4 := extendStarts_spec (sortByLt ltByStart (extendEnds (sortByLt ltByEnd l)))
  have hwf4 : ∀ r ∈ extendStarts (sortByLt ltByStart (extendEnds (sortByLt ltByEnd l))),
      r.startQ ≤ r.endQ := by
    intro r hr
    obtain ⟨x, hx, hrel⟩ := forall₂_mem_right hf4 r hr
    have := hwf3 x hx
    rw [hrel.2.2.1]
    exact le_trans hrel.2.2.2 this
  have hsort4 := extendStarts_sorted _ hsort3
  have hmap4 : (extendStarts (sortByLt ltByStart (extendEnds (sortByLt ltByEnd l)))).map
      RawSegment.uuid = (sortByLt ltByStart (extendEnds (sortByLt ltByEnd l))).map
      RawSegment.uuid :=
    forall₂_proj_eq RawSegment.uuid (fun x y h => h.1) hf4
  have hpermuuid : List.Perm ((sortByLt ltByStart (extendEnds (sortByLt ltByEnd l))).map
      RawSegment.uuid) (l.map RawSegment.uuid) := by
    refine (hp3.map RawSegment.uuid).trans ?_
    rw [hmap2]
    exact hp1.map RawSegment.uuid
  have hlen : (extendStarts (sortByLt ltByStart (extendEnds (sortByLt ltByEnd l)))).length
      = l.length := by
    have e1 := hp1.length_eq
    have e2 := forall₂_length_eq hf2
    have e3 := hp3.length_eq
    have e4 := forall₂_length_eq hf4
    omega
  exact ⟨hwf4, hsort4, hmap4, hpermuuid, hlen⟩

/-! ## Claim C2: the merge output invariants -/

/-- C2.  For any input record list with well-formed intervals (start at most
end), the merge output is strictly sorted ascending by start, consecutive
outputs are separated by at least one second, outputs are pairwise
non-overlapping, and the concatenation of the output uuid lists is a
permutation of the input uuids: no id is lost or duplicated. -/
theorem processSegments_merge_invariants (l : List RawSegment)
    (hwf : ∀ r ∈ l, r.startQ ≤ r.endQ) :
    List.Pairwise (fun a b : Segment => a.startQ < b.startQ) (processSegments l).1 ∧
    List.Chain' (fun a b : Segment => a.endQ + 1 ≤ b.startQ) (processSegments l).1 ∧
    List.Pairwise (fun a b : Segment => a.endQ < b.startQ) (processSegments l).1 ∧
    List.Perm (((processSegments l).1.map Segment.uuids).flatten) (l.map RawSegment.uuid) := by
  obtain ⟨hwf4, hsort4, hmap4, hperm4, _⟩ := pipeline_t4_spec l hwf
  obtain ⟨s1, s2, s3, s4, s5⟩ := combineSegments_spec _ hwf4 hsort4
  have hfst : (processSegments l).1 =
      combineSegments (extendStarts (sortByLt ltByStart (extendEnds (sortByLt ltByEnd l)))) :=
    rfl
  rw [hfst]
  refine ⟨?_, ?_, ?_, ?_⟩
  · refine s1.imp_of_mem ?_
    intro a b ha hb hsep
    have hwa := s2 a ha
    unfold sepR at hsep
    linarith
  · exact (s1.imp (fun h => h)).chain'
  · refine s1.imp ?_
    intro a b hsep
    unfold sepR at hsep
    linarith
  · refine s4.trans ?_
    rw [hmap4]
    exact hperm4

/-- Witness for C2 at the worked example of the spec: three raw records, two
overlapping and one separate. -/
theorem processSegments_merge_invariants_witness :
    (∀ r ∈ ([{ startQ := 0, endQ := 10, uuid := "a", locked := 0 },
              { startQ := 8, endQ := 20, uuid := "b", locked := 1 },
              { startQ := 25, endQ := 30, uuid := "c", locked := 1 }] : List RawSegment),
        r.startQ ≤ r.endQ) ∧
    (List.Pairwise (fun a b : Segment => a.startQ < b.startQ)
        (processSegments [{ startQ := 0, endQ := 10, uuid := "a", locked := 0 },
          { startQ := 8, endQ := 20, uuid := "b", locked := 1 },
          { startQ := 25, endQ := 30, uuid := "c", locked := 1 }]).1 ∧
      List.Chain' (fun a b : Segment => a.endQ + 1 ≤ b.startQ)
        (processSegments [{ startQ := 0, endQ := 10, uuid := "a", locked := 0 },
          { startQ := 8, endQ := 20, uuid := "b", locked := 1 },
          { startQ := 25, endQ := 30, uuid := "c", locked := 1 }]).1 ∧
      List.Pairwise (fun a b : Segment => a.endQ < b.startQ)
        (processSegments [{ startQ := 0, endQ := 10, uuid := "a", locked := 0 },
          { startQ := 8, endQ := 20, uuid := "b", locked := 1 },
          { startQ := 25, endQ := 30, uuid := "c", locked := 1 }]).1 ∧
      List.Perm (((processSegments [{ startQ := 0, endQ := 10, uuid := "a", locked := 0 },
          { startQ := 8, endQ := 20, uuid := "b", locked := 1 },
          { startQ := 25, endQ := 30, uuid := "c", locked := 1 }]).1.map Segment.uuids).flatten)
        (["a", "b", "c"])) :=
  ⟨by decide, processSegments_merge_invariants _ (by decide)⟩

/-! ## Claim C8: the permanent flag -/

theorem foldl_and_eq_all {α : Type} (p : α → Bool) :
    ∀ (l : List α) (b : Bool), l.foldl (fun acc s => acc && p s) b = (b && l.all p) := by
  intro l
  induction l with
  | nil => intro b; simp
  | cons x xs ih =>
    intro b
    show xs.foldl _ (b && p x) = _
    rw [ih (b && p x)]
    simp [Bool.and_assoc]

theorem all_comp_map {α β : Type} (f : α → β) (p : β → Bool) :
    ∀ l : List α, (l.map f).all p = l.all (fun x => p (f x)) := by
  intro l
  induction l with
  | nil => rfl
  | cons x xs ih => simp [List.all_cons, ih]

theorem perm_all_eq {α : Type} {l₁ l₂ : List α} (h : List.Perm l₁ l₂) (q : α → Bool) :
    l₁.all q = l₂.all q := by
  cases h1 : l₁.all q with
  | true =>
    have := List.all_eq_true.mp h1
    exact (List.all_eq_true.mpr (fun x hx => this x (h.mem_iff.mpr hx))).symm
  | false =>
    cases h2 : l₂.all q with
    | false => rfl
    | true =>
      have := List.all_eq_true.mp h2
      have hcontra := List.all_eq_true.mpr (fun x hx => this x (h.mem_iff.mp hx))
      rw [h1] at hcontra
      exact absurd hcontra (by simp)

/-- C8.  The permanent flag (ignoreTTL) of the merge output equals the
conjunction of locked over all input records, and the merge of the empty
record list is the empty segment set marked permanent. -/
theorem processSegments_permanent_iff_all_locked :
    (∀ l : List RawSegment,
      (processSegments l).2 = l.all (fun r => r.locked == 1)) ∧
    processSegments ([] : List RawSegment) = ([], true) := by
  constructor
  · intro l
    have hsnd : (processSegments l).2 =
        ignoreTTLOf (extendStarts (sortByLt ltByStart (extendEnds (sortByLt ltByEnd l)))) :=
      rfl
    rw [hsnd]
    unfold ignoreTTLOf
    rw [foldl_and_eq_all]
    simp only [Bool.true_and]
    have hf2 := extendEnds_spec (sortByLt ltByEnd l)
    have hf4 := extendStarts_spec (sortByLt ltByStart (extendEnds (sortByLt ltByEnd l)))
    have hml4 : (extendStarts (sortByLt ltByStart (extendEnds (sortByLt ltByEnd l)))).map
        RawSegment.locked = (sortByLt ltByStart (extendEnds (sortByLt ltByEnd l))).map
        RawSegment.locked :=
      forall₂_proj_eq RawSegment.locked (fun x y h => h.2.1) hf4
    have hml2 : (extendEnds (sortByLt ltByEnd l)).map RawSegment.locked =
        (sortByLt ltByEnd l).map RawSegment.locked :=
      forall₂_proj_eq RawSegment.locked (fun x y h => h.2.1) hf2
    have hperml : List.Perm ((extendStarts (sortByLt ltByStart (extendEnds
        (sortByLt ltByEnd l)))).map RawSegment.locked) (l.map RawSegment.locked) := by
      rw [hml4]
      refine ((sortByLt_perm ltByStart _).map RawSegment.locked).trans ?_
      rw [hml2]
      exact (sortByLt_perm ltByEnd l).map RawSegment.locked
    have h1 : (extendStarts (sortByLt ltByStart (extendEnds (sortByLt ltByEnd l)))).all
        (fun r => r.locked == 1) = ((extendStarts (sortByLt ltByStart (extendEnds
        (sortByLt ltByEnd l)))).map RawSegment.locked).all (fun v => v == 1) :=
      (all_comp_map RawSegment.locked (fun v => v == 1) _).symm
    have h2 : l.all (fun r => r.locked == 1) =
        (l.map RawSegment.locked).all (fun v => v == 1) :=
      (all_comp_map RawSegment.locked (fun v => v == 1) l).symm
    rw [h1, h2]
    exact perm_all_eq hperml _
  · rfl

/-! ## Claim C7: the skip target selection -/

theorem select_cons_within (h : Segment) (rest : List Segment) (pos : ℚ)
    (h1 : pos < 1) (h2 : 1 < h.endQ) (h3 : h.startQ ≤ pos) :
    timeToSegmentSelect (h :: rest) pos = some (h, pos) := by
  have h4 : pos < h.endQ := lt_trans h1 h2
  simp [timeToSegmentSelect, h1, h2, h3, h4, gt_iff_lt]

theorem select_cons_beyond (h : Segment) (rest : List Segment) (pos : ℚ)
    (hb : pos < h.startQ) :
    timeToSegmentSelect (h :: rest) pos = some (h, h.startQ) := by
  simp [timeToSegmentSelect, not_le.mpr hb, hb, gt_iff_lt]

theorem select_cons_skip (h : Segment) (rest : List Segment) (pos : ℚ)
    (hw : ¬ (pos < 1 ∧ 1 < h.endQ ∧ h.startQ ≤ pos ∧ pos < h.endQ))
    (hnb : ¬ pos < h.startQ) :
    timeToSegmentSelect (h :: rest) pos = timeToSegmentSelect rest pos := by
  have hwb : (decide (pos < 1) && decide (h.endQ > 1) &&
      decide (h.startQ ≤ pos) && decide (pos < h.endQ)) = false := by
    rcases not_and_or.mp hw with h1 | hrest
    · simp [h1]
    rcases not_and_or.mp hrest with h2 | hrest2
    · simp [gt_iff_lt, h2]
    rcases not_and_or.mp hrest2 with h3 | h4
    · simp [h3]
    · simp [h4]
  have hbb : decide (h.startQ > pos) = false := by
    simp [gt_iff_lt, hnb]
  show (if (decide (pos < 1) && decide (h.endQ > 1) &&
      decide (h.startQ ≤ pos) && decide (pos < h.endQ)) = true then some (h, pos)
    else if decide (h.startQ > pos) = true then some (h, h.startQ)
    else timeToSegmentSelect rest pos) = timeToSegmentSelect rest pos
  rw [hwb, hbb]
  simp

/-- C7.  Target selection of timeToSegment, for a segment list satisfying the
documented invariant (intervals well formed, consecutive segments separated by
the one-second merge gap, as the merge engine produces): (a) when the position
is inside the first playback second and a segment spans that opening window,
that segment is selected with the skip target starting at the current
position; (b) otherwise the first segment in start order beginning strictly
after the position is selected, with the target starting at the segment
start; (c) with no qualifying segment nothing is selected. -/
theorem timeToSegment_selection_spec (segments : List Segment) (position : ℚ)
    (hwf : ∀ s ∈ segments, s.startQ ≤ s.endQ)
    (hsep : List.Pairwise (fun a b : Segment => a.endQ + 1 ≤ b.startQ) segments) :
    (∀ seg ∈ segments, position < 1 → seg.startQ ≤ position → 1 < seg.endQ →
        timeToSegmentSelect segments position = some (seg, position)) ∧
    ((¬ ∃ seg ∈ segments, position < 1 ∧ seg.startQ ≤ position ∧ 1 < seg.endQ) →
      (∀ seg ∈ segments, position < seg.startQ →
          (∀ t ∈ segments, position < t.startQ → seg.startQ ≤ t.startQ) →
          timeToSegmentSelect segments position = some (seg, seg.startQ)) ∧
      ((∀ seg ∈ segments, seg.startQ ≤ position) →
          timeToSegmentSelect segments position = none)) := by
  induction segments with
  | nil =>
    refine ⟨?_, ?_⟩
    · intro seg hseg
      exact absurd hseg (by simp)
    · intro _
      exact ⟨fun seg hseg => absurd hseg (by simp), fun _ => rfl⟩
  | cons h rest ih =>
    have hwf_rest : ∀ s ∈ rest, s.startQ ≤ s.endQ :=
      fun s hs => hwf s (List.mem_cons_of_mem _ hs)
    have hwf_h : h.startQ ≤ h.endQ := hwf h (List.mem_cons_self _ _)
    have hsep_rest := (List.pairwise_cons.mp hsep).2
    have hsep_h : ∀ t ∈ rest, h.endQ + 1 ≤ t.startQ := (List.pairwise_cons.mp hsep).1
    obtain ⟨ihA, ihB⟩ := ih hwf_rest hsep_rest
    refine ⟨?_, ?_⟩
    · intro seg hseg hp1 hps h1e
      rcases List.mem_cons.mp hseg with hh | hmem
      · subst hh
        exact select_cons_within seg rest position hp1 h1e hps
      · have hhs : h.endQ + 1 ≤ seg.startQ := hsep_h seg hmem
        have hlt : h.endQ < position := by linarith
        have hnw : ¬ (position < 1 ∧ 1 < h.endQ ∧ h.startQ ≤ position ∧
            position < h.endQ) := by
          intro ⟨_, _, _, hc⟩
          linarith
        have hnb : ¬ position < h.startQ := by
          have : h.startQ ≤ h.endQ := hwf_h
          push_neg
          linarith
        rw [select_cons_skip h rest position hnw hnb]
        exact ihA seg hmem hp1 hps h1e
    · intro hns
      have hns_rest : ¬ ∃ seg ∈ rest, position < 1 ∧ seg.startQ ≤ position ∧
          1 < seg.endQ := by
        intro ⟨seg, hmem, hc⟩
        exact hns ⟨seg, List.mem_cons_of_mem _ hmem, hc⟩
      obtain ⟨ihB1, ihB2⟩ := ihB hns_rest
      have hnw : ¬ (position < 1 ∧ 1 < h.endQ ∧ h.startQ ≤ position ∧
          position < h.endQ) := by
        intro ⟨hc1, hc2, hc3, _⟩
        exact hns ⟨h, List.mem_cons_self _ _, hc1, hc3, hc2⟩
      refine ⟨?_, ?_⟩
      · intro seg hseg hpos hmin
        rcases List.mem_cons.mp hseg with hh | hmem
        · subst hh
          exact select_cons_beyond seg rest position hpos
        · have hnb : ¬ position < h.startQ := by
            intro hb
            have hmin_h := hmin h (List.mem_cons_self _ _) hb
            have hhs : h.endQ + 1 ≤ seg.startQ := hsep_h seg hmem
            linarith
          rw [select_cons_skip h rest position hnw hnb]
          exact ihB1 seg hmem hpos
            (fun t ht hpt => hmin t (List.mem_cons_of_mem _ ht) hpt)
      · intro hall
        have hnb : ¬ position < h.startQ :=
          not_lt.mpr (hall h (List.mem_cons_self _ _))
        rw [select_cons_skip h rest position hnw hnb]
        exact ihB2 (fun seg hseg => hall seg (List.mem_cons_of_mem _ hseg))

/-! ## Identity of the merge passes on already-merged data -/

theorem endExtInner_eq_self (l0 : List RawSegment) (e : ℚ)
    (H : ∀ s ∈ l0, s.startQ ≤ e → e ≤ s.endQ → s.endQ = e) : endExtInner l0 e = e := by
  unfold endExtInner
  induction l0 with
  | nil => rfl
  | cons s l ih =>
    have hstep : endStep e s = e := by
      unfold endStep
      split
      · exact H s (List.mem_cons_self _ _) (by assumption : _ ∧ _).1 (by assumption : _ ∧ _).2
      · rfl
    show l.foldl endStep (endStep e s) = e
    rw [hstep]
    exact ih (fun s hs => H s (List.mem_cons_of_mem _ hs))

theorem startExtInner_eq_self (l0 : List RawSegment) (sv : ℚ)
    (H : ∀ s ∈ l0, s.startQ ≤ sv → sv ≤ s.endQ → s.startQ = sv) :
    startExtInner l0 sv = sv := by
  unfold startExtInner
  have H2 : ∀ s ∈ l0.reverse, s.startQ ≤ sv → sv ≤ s.endQ → s.startQ = sv := by
    intro s hs
    exact H s (List.mem_reverse.mp hs)
  generalize hrev : l0.reverse = lr at H2 ⊢
  clear hrev
  induction lr with
  | nil => rfl
  | cons s l ih =>
    have hstep : startStep sv s = sv := by
      unfold startStep
      split
      · exact H2 s (List.mem_cons_self _ _) (by assumption : _ ∧ _).1 (by assumption : _ ∧ _).2
      · rfl
    show l.foldl startStep (startStep sv s) = sv
    rw [hstep]
    exact ih (fun s hs => H2 s (List.mem_cons_of_mem _ hs))

theorem extendEndsGo_eq_self (l0 : List RawSegment)
    (H : ∀ x ∈ l0, ∀ s ∈ l0, s.startQ ≤ x.endQ → x.endQ ≤ s.endQ → s.endQ = x.endQ) :
    ∀ (rest doneRev : List RawSegment), doneRev.reverse ++ rest = l0 →
      extendEndsGo doneRev rest = l0 := by
  intro rest
  induction rest with
  | nil =>
    intro doneRev hsplit
    show doneRev.reverse = l0
    simpa using hsplit
  | cons x rest ih =>
    intro doneRev hsplit
    have hx : x ∈ l0 := by
      rw [← hsplit]
      simp
    have hinner : endExtInner (doneRev.reverse ++ x :: rest) x.endQ = x.endQ := by
      rw [hsplit]
      exact endExtInner_eq_self l0 x.endQ (fun s hs => H x hx s hs)
    show extendEndsGo ({ x with endQ := endExtInner (doneRev.reverse ++ x :: rest) x.endQ } :: doneRev) rest = l0
    rw [hinner]
    have hxeta : ({ x with endQ := x.endQ } : RawSegment) = x := rfl
    rw [hxeta]
    refine ih (x :: doneRev) ?_
    rw [← hsplit]
    simp

theorem extendEnds_eq_self (l0 : List RawSegment)
    (H : ∀ x ∈ l0, ∀ s ∈ l0, s.startQ ≤ x.endQ → x.endQ ≤ s.endQ → s.endQ = x.endQ) :
    extendEnds l0 = l0 :=
  extendEndsGo_eq_self l0 H l0 [] rfl

theorem extendStartsGo_eq_self (l0 : List RawSegment)
    (H : ∀ x ∈ l0, ∀ s ∈ l0, s.startQ ≤ x.startQ → x.startQ ≤ s.endQ → s.startQ = x.startQ) :
    ∀ (revLeft done : List RawSegment), revLeft.reverse ++ done = l0 →
      extendStartsGo done revLeft = l0 := by
  intro revLeft
  induction revLeft with
  | nil =>
    intro done hsplit
    show done = l0
    simpa using hsplit
  | cons x revRest ih =>
    intro done hsplit
    have hcur : revRest.reverse ++ x :: done = l0 := by
      rw [← hsplit]
      simp
    have hx : x ∈ l0 := by
      rw [← hcur]
      simp
    have hinner : startExtInner (revRest.reverse ++ x :: done) x.startQ = x.startQ := by
      rw [hcur]
      exact startExtInner_eq_self l0 x.startQ (fun s hs => H x hx s hs)
    show extendStartsGo ({ x with startQ := startExtInner (revRest.reverse ++ x :: done) x.startQ } :: done) revRest = l0
    rw [hinner]
    have hxeta : ({ x with startQ := x.startQ } : RawSegment) = x := rfl
    rw [hxeta]
    exact ih (x :: done) hcur

theorem extendStarts_eq_self (l0 : List RawSegment)
    (H : ∀ x ∈ l0, ∀ s ∈ l0, s.startQ ≤ x.startQ → x.startQ ≤ s.endQ → s.startQ = x.startQ) :
    extendStarts l0 = l0 := by
  refine extendStartsGo_eq_self l0 H l0.reverse [] ?_
  simp

/-! ## Structure of the re-embedded merge output -/

theorem embed_mem {out : List Segment} {p : Bool} {r : RawSegment}
    (hr : r ∈ embedSegments out p) :
    ∃ seg ∈ out, ∃ u ∈ seg.uuids,
      r = { startQ := seg.startQ, endQ := seg.endQ, uuid := u,
            locked := if p then 1 else 0 } := by
  unfold embedSegments at hr
  rw [List.mem_flatten] at hr
  obtain ⟨gl, hgl, hrgl⟩ := hr
  rw [List.mem_map] at hgl
  obtain ⟨seg, hseg, hglseg⟩ := hgl
  rw [← hglseg, List.mem_map] at hrgl
  obtain ⟨u, hu, hru⟩ := hrgl
  exact ⟨seg, hseg, u, hu, hru.symm⟩

theorem pairwise_mem_cases {α : Type} {R : α → α → Prop} :
    ∀ {l : List α}, List.Pairwise R l → ∀ a ∈ l, ∀ b ∈ l, a = b ∨ R a b ∨ R b a := by
  intro l hp
  induction hp with
  | nil => intro a ha; exact absurd ha (by simp)
  | cons hx _ ih =>
    intro a ha b hb
    rcases List.mem_cons.mp ha with h1 | h1 <;> rcases List.mem_cons.mp hb with h2 | h2
    · exact Or.inl (h1.trans h2.symm)
    · exact Or.inr (Or.inl (h1 ▸ hx b h2))
    · exact Or.inr (Or.inr (h2 ▸ hx a h1))
    · exact ih a h1 b h2

theorem pairwise_of_forall {α : Type} {R : α → α → Prop} (h : ∀ a b : α, R a b) :
    ∀ l : List α, List.Pairwise R l := by
  intro l
  induction l with
  | nil => exact List.Pairwise.nil
  | cons x xs ih => exact List.pairwise_cons.mpr ⟨fun y _ => h x y, ih⟩

theorem embed_chain (out : List Segment) (p : Bool) (R : RawSegment → RawSegment → Prop)
    (hsame : ∀ seg ∈ out, ∀ u v : String,
      R { startQ := seg.startQ, endQ := seg.endQ, uuid := u, locked := if p then 1 else 0 }
        { startQ := seg.startQ, endQ := seg.endQ, uuid := v, locked := if p then 1 else 0 })
    (hcross : ∀ A ∈ out, ∀ B ∈ out, sepR A B → ∀ u v : String,
      R { startQ := A.startQ, endQ := A.endQ, uuid := u, locked := if p then 1 else 0 }
        { startQ := B.startQ, endQ := B.endQ, uuid := v, locked := if p then 1 else 0 })
    (hpair : List.Pairwise sepR out) :
    List.Chain' R (embedSegments out p) := by
  induction out with
  | nil => exact List.chain'_nil
  | cons seg out' ih =>
    have hsplit : embedSegments (seg :: out') p =
        (seg.uuids.map (fun u => RawSegment.mk seg.startQ seg.endQ u (if p then 1 else 0)))
          ++ embedSegments out' p := by
      simp [embedSegments]
    rw [hsplit]
    refine List.chain'_append.mpr ⟨?_, ?_, ?_⟩
    · rw [List.chain'_map]
      refine List.Pairwise.chain' ?_
      exact pairwise_of_forall (fun u v => hsame seg (List.mem_cons_self _ _) u v) _
    · exact ih (fun s hs => hsame s (List.mem_cons_of_mem _ hs))
        (fun A hA B hB => hcross A (List.mem_cons_of_mem _ hA) B (List.mem_cons_of_mem _ hB))
        (List.pairwise_cons.mp hpair).2
    · intro x hx y hy
      have hxmem : x ∈ seg.uuids.map
          (fun u => RawSegment.mk seg.startQ seg.endQ u (if p then 1 else 0)) :=
        List.mem_of_getLast?_eq_some hx
      have hymem : y ∈ embedSegments out' p := List.mem_of_mem_head? hy
      rw [List.mem_map] at hxmem
      obtain ⟨u, _, hxu⟩ := hxmem
      obtain ⟨segB, hsegB, v, _, hyv⟩ := embed_mem hymem
      rw [← hxu, hyv]
      exact hcross seg (List.mem_cons_self _ _) segB (List.mem_cons_of_mem _ hsegB)
        ((List.pairwise_cons.mp hpair).1 segB hsegB) u v

theorem embed_chain_endle (out : List Segment) (p : Bool)
    (hpair : List.Pairwise sepR out) (hwf : ∀ seg ∈ out, seg.startQ ≤ seg.endQ) :
    List.Chain' (fun a b : RawSegment => ltByEnd b a = false) (embedSegments out p) := by
  refine embed_chain out p _ ?_ ?_ hpair
  · intro seg _ u v
    exact decide_eq_false (lt_irrefl _)
  · intro A hA B hB hsep u v
    refine decide_eq_false (not_lt.mpr ?_)
    show A.endQ ≤ B.endQ
    have := hwf B hB
    unfold sepR at hsep
    linarith

theorem embed_chain_startle (out : List Segment) (p : Bool)
    (hpair : List.Pairwise sepR out) (hwf : ∀ seg ∈ out, seg.startQ ≤ seg.endQ) :
    List.Chain' (fun a b : RawSegment => ltByStart b a = false) (embedSegments out p) := by
  refine embed_chain out p _ ?_ ?_ hpair
  · intro seg _ u v
    exact decide_eq_false (lt_irrefl _)
  · intro A hA B hB hsep u v
    refine decide_eq_false (not_lt.mpr ?_)
    show A.startQ ≤ B.startQ
    have := hwf A hA
    unfold sepR at hsep
    linarith

theorem embed_endH (out : List Segment) (p : Bool)
    (hpair : List.Pairwise sepR out) (hwf : ∀ seg ∈ out, seg.startQ ≤ seg.endQ) :
    ∀ x ∈ embedSegments out p, ∀ s ∈ embedSegments out p,
      s.startQ ≤ x.endQ → x.endQ ≤ s.endQ → s.endQ = x.endQ := by
  intro x hx s hs h1 h2
  obtain ⟨A, hA, ux, _, hxA⟩ := embed_mem hx
  obtain ⟨B, hB, us, _, hsB⟩ := embed_mem hs
  rcases pairwise_mem_cases hpair A hA B hB with hAB | hAB | hAB
  · rw [hxA, hsB, hAB]
  · exfalso
    rw [hxA] at h1 h2
    rw [hsB] at h1 h2
    unfold sepR at hAB
    simp only at h1 h2
    linarith
  · exfalso
    rw [hxA] at h1 h2
    rw [hsB] at h1 h2
    have hwfA := hwf A hA
    unfold sepR at hAB
    simp only at h1 h2
    linarith

theorem embed_startH (out : List Segment) (p : Bool)
    (hpair : List.Pairwise sepR out) (hwf : ∀ seg ∈ out, seg.startQ ≤ seg.endQ) :
    ∀ x ∈ embedSegments out p, ∀ s ∈ embedSegments out p,
      s.startQ ≤ x.startQ → x.startQ ≤ s.endQ → s.startQ = x.startQ := by
  intro x hx s hs h1 h2
  obtain ⟨A, hA, ux, _, hxA⟩ := embed_mem hx
  obtain ⟨B, hB, us, _, hsB⟩ := embed_mem hs
  rcases pairwise_mem_cases hpair A hA B hB with hAB | hAB | hAB
  · rw [hxA, hsB, hAB]
  · exfalso
    rw [hxA] at h1 h2
    rw [hsB] at h1 h2
    have hwfA := hwf A hA
    unfold sepR at hAB
    simp only at h1 h2
    linarith
  · exfalso
    rw [hxA] at h1 h2
    rw [hsB] at h1 h2
    unfold sepR at hAB
    simp only at h1 h2
    linarith

/-! ## The combining walk on the re-embedded output -/

theorem combineFold_group_inner (s0 e0 : ℚ) (lk : Int) (hwfg : s0 ≤ e0) :
    ∀ (us : List String) (prevU : List String) (acc2 : List Segment),
      (us.map (fun u => RawSegment.mk s0 e0 u lk)).foldl combineStep
          ({ startQ := s0, endQ := e0, uuids := prevU } :: acc2) =
        { startQ := s0, endQ := e0, uuids := us.reverse ++ prevU } :: acc2 := by
  intro us
  induction us with
  | nil =>
    intro prevU acc2
    simp
  | cons u us ih =>
    intro prevU acc2
    have hcond : s0 - e0 < 1 := by linarith
    have hstep : combineStep ({ startQ := s0, endQ := e0, uuids := prevU } :: acc2)
        (RawSegment.mk s0 e0 u lk) =
        { startQ := s0, endQ := e0, uuids := u :: prevU } :: acc2 := by
      simp [combineStep, hcond]
    show (us.map (fun u => RawSegment.mk s0 e0 u lk)).foldl combineStep
        (combineStep ({ startQ := s0, endQ := e0, uuids := prevU } :: acc2)
          (RawSegment.mk s0 e0 u lk)) = _
    rw [hstep, ih (u :: prevU) acc2]
    simp

theorem combineFold_group (s0 e0 : ℚ) (lk : Int) (u0 : String) (us : List String)
    (acc : List Segment) (hwfg : s0 ≤ e0)
    (hlink : ∀ a, acc.head? = some a → a.endQ + 1 ≤ s0) :
    (((u0 :: us).map (fun u => RawSegment.mk s0 e0 u lk)).foldl combineStep acc) =
      { startQ := s0, endQ := e0, uuids := (u0 :: us).reverse } :: acc := by
  have hfirst : combineStep acc (RawSegment.mk s0 e0 u0 lk) =
      { startQ := s0, endQ := e0, uuids := [u0] } :: acc := by
    cases acc with
    | nil => rfl
    | cons a rest =>
      have ha := hlink a rfl
      have hcond : ¬ (s0 - a.endQ < 1) := by
        push_neg
        linarith
      simp [combineStep, hcond]
  show (us.map (fun u => RawSegment.mk s0 e0 u lk)).foldl combineStep
      (combineStep acc (RawSegment.mk s0 e0 u0 lk)) = _
  rw [hfirst, combineFold_group_inner s0 e0 lk hwfg us [u0] acc]
  simp

theorem combineFold_embed (p : Bool) :
    ∀ (out : List Segment) (acc : List Segment),
      List.Chain' sepR out →
      (∀ seg ∈ out, seg.startQ ≤ seg.endQ) →
      (∀ seg ∈ out, seg.uuids ≠ []) →
      (∀ a, acc.head? = some a → ∀ s, out.head? = some s → a.endQ + 1 ≤ s.startQ) →
      (embedSegments out p).foldl combineStep acc =
        (out.map (fun seg => { seg with uuids := seg.uuids.reverse })).reverse ++ acc := by
  intro out
  induction out with
  | nil =>
    intro acc _ _ _ _
    simp [embedSegments]
  | cons seg out' ih =>
    intro acc hchain hwf hne hacc
    obtain ⟨u0, us, huu⟩ := List.exists_cons_of_ne_nil (hne seg (List.mem_cons_self _ _))
    have hsplit : embedSegments (seg :: out') p =
        (seg.uuids.map (fun u => RawSegment.mk seg.startQ seg.endQ u (if p then 1 else 0)))
          ++ embedSegments out' p := by
      simp [embedSegments]
    rw [hsplit, List.foldl_append]
    have hgroup : (seg.uuids.map (fun u => RawSegment.mk seg.startQ seg.endQ u
        (if p then 1 else 0))).foldl combineStep acc =
        { startQ := seg.startQ, endQ := seg.endQ, uuids := seg.uuids.reverse } :: acc := by
      rw [huu]
      rw [combineFold_group seg.startQ seg.endQ (if p then 1 else 0) u0 us acc
        (hwf seg (List.mem_cons_self _ _))
        (fun a ha => hacc a ha seg rfl)]
    rw [hgroup]
    have hcombeq : ({ startQ := seg.startQ, endQ := seg.endQ, uuids := seg.uuids.reverse }
        : Segment) = { seg with uuids := seg.uuids.reverse } := rfl
    rw [hcombeq]
    have hlink2 : ∀ a, ({ seg with uuids := seg.uuids.reverse } :: acc).head? = some a →
        ∀ s, out'.head? = some s → a.endQ + 1 ≤ s.startQ := by
      intro a ha s hs
      have haeq : ({ seg with uuids := seg.uuids.reverse } : Segment) = a := by simpa using ha
      cases out' with
      | nil => simp at hs
      | cons s2 rest2 =>
        have hseq : s2 = s := by simpa using hs
        have hrel : sepR seg s2 := (List.chain'_cons.mp hchain).1
        rw [← haeq, ← hseq]
        exact hrel
    rw [ih ({ seg with uuids := seg.uuids.reverse } :: acc) hchain.tail
      (fun s hs => hwf s (List.mem_cons_of_mem _ hs))
      (fun s hs => hne s (List.mem_cons_of_mem _ hs)) hlink2]
    simp

theorem ignoreTTL_embed (out : List Segment) (p : Bool)
    (hne : ∀ seg ∈ out, seg.uuids ≠ [])
    (hempty : out = [] → p = true) :
    ignoreTTLOf (embedSegments out p) = p := by
  unfold ignoreTTLOf
  rw [foldl_and_eq_all]
  simp only [Bool.true_and]
  by_cases hp : p = true
  · subst hp
    refine List.all_eq_true.mpr ?_
    intro r hr
    obtain ⟨seg, _, u, _, hru⟩ := embed_mem hr
    rw [hru]
    simp
  · have hp2 : p = false := by
      cases p
      · rfl
      · exact absurd rfl hp
    subst hp2
    cases out with
    | nil => exact absurd (hempty rfl) (by simp)
    | cons seg out2 =>
      obtain ⟨u0, us, huu⟩ := List.exists_cons_of_ne_nil
        (hne seg (List.mem_cons_self _ _))
      have hmem : ({ startQ := seg.startQ, endQ := seg.endQ, uuid := u0, locked := 0 } : RawSegment) ∈ embedSegments (seg :: out2) false := by
        unfold embedSegments
        rw [List.mem_flatten]
        refine ⟨seg.uuids.map (fun u => RawSegment.mk seg.startQ seg.endQ u
          (if false then 1 else 0)), ?_, ?_⟩
        · rw [List.mem_map]
          exact ⟨seg, List.mem_cons_self _ _, rfl⟩
        · rw [List.mem_map]
          refine ⟨u0, ?_, by norm_num⟩
          rw [huu]
          simp
      cases hall : (embedSegments (seg :: out2) false).all (fun r => r.locked == 1) with
      | false => rfl
      | true =>
        exfalso
        have := List.all_eq_true.mp hall _ hmem
        simp at this

/-! ## Claim C9: idempotence of the merge -/

/-- C9 counterexample.  The claim states the merge is idempotent: re-merging
the output of a merge (its segments re-read as raw records, one per stored
uuid in stored order) yields that same output.  At the concrete input of two
overlapping records a and b the first merge produces one segment with uuid
list [b, a], because the combining walk appends the older uuids after the new
one; re-merging produces the uuid list [a, b], so the claimed fixed point
fails. -/
theorem processSegments_not_idempotent :
    processSegments (embedSegments
        (processSegments [{ startQ := 0, endQ := 10, uuid := "a", locked := 0 },
          { startQ := 8, endQ := 20, uuid := "b", locked := 1 }]).1
        (processSegments [{ startQ := 0, endQ := 10, uuid := "a", locked := 0 },
          { startQ := 8, endQ := 20, uuid := "b", locked := 1 }]).2) ≠
      processSegments [{ startQ := 0, endQ := 10, uuid := "a", locked := 0 },
        { startQ := 8, endQ := 20, uuid := "b", locked := 1 }] := by
  have ht4 : extendStarts (sortByLt ltByStart (extendEnds (sortByLt ltByEnd
      [{ startQ := 0, endQ := 10, uuid := "a", locked := 0 },
       { startQ := 8, endQ := 20, uuid := "b", locked := 1 }]))) =
      [{ startQ := 0, endQ := 20, uuid := "a", locked := 0 },
       { startQ := 0, endQ := 20, uuid := "b", locked := 1 }] := by rfl
  have hcomb : combineSegments
      [{ startQ := 0, endQ := 20, uuid := "a", locked := 0 },
       { startQ := 0, endQ := 20, uuid := "b", locked := 1 }] =
      [{ startQ := 0, endQ := 20, uuids := ["b", "a"] }] := by
    unfold combineSegments
    norm_num [combineStep, List.foldl]
  have h1 : processSegments [{ startQ := 0, endQ := 10, uuid := "a", locked := 0 },
      { startQ := 8, endQ := 20, uuid := "b", locked := 1 }] =
      ([{ startQ := 0, endQ := 20, uuids := ["b", "a"] }], false) := by
    show (combineSegments (extendStarts (sortByLt ltByStart (extendEnds (sortByLt ltByEnd
      [{ startQ := 0, endQ := 10, uuid := "a", locked := 0 },
       { startQ := 8, endQ := 20, uuid := "b", locked := 1 }])))),
      ignoreTTLOf (extendStarts (sortByLt ltByStart (extendEnds (sortByLt ltByEnd
      [{ startQ := 0, endQ := 10, uuid := "a", locked := 0 },
       { startQ := 8, endQ := 20, uuid := "b", locked := 1 }]))))) = _
    rw [ht4, hcomb]
    rfl
  rw [h1]
  have hembed : embedSegments [{ startQ := 0, endQ := 20, uuids := ["b", "a"] }] false =
      [{ startQ := 0, endQ := 20, uuid := "b", locked := 0 },
       { startQ := 0, endQ := 20, uuid := "a", locked := 0 }] := rfl
  have ht4b : extendStarts (sortByLt ltByStart (extendEnds (sortByLt ltByEnd
      [{ startQ := 0, endQ := 20, uuid := "b", locked := 0 },
       { startQ := 0, endQ := 20, uuid := "a", locked := 0 }]))) =
      [{ startQ := 0, endQ := 20, uuid := "b", locked := 0 },
       { startQ := 0, endQ := 20, uuid := "a", locked := 0 }] := by rfl
  have hcomb2 : combineSegments
      [{ startQ := 0, endQ := 20, uuid := "b", locked := 0 },
       { startQ := 0, endQ := 20, uuid := "a", locked := 0 }] =
      [{ startQ := 0, endQ := 20, uuids := ["a", "b"] }] := by
    unfold combineSegments
    norm_num [combineStep, List.foldl]
  have h2 : processSegments (embedSegments
      [{ startQ := 0, endQ := 20, uuids := ["b", "a"] }] false) =
      ([{ startQ := 0, endQ := 20, uuids := ["a", "b"] }], false) := by
    rw [hembed]
    show (combineSegments (extendStarts (sortByLt ltByStart (extendEnds (sortByLt ltByEnd
      [{ startQ := 0, endQ := 20, uuid := "b", locked := 0 },
       { startQ := 0, endQ := 20, uuid := "a", locked := 0 }])))),
      ignoreTTLOf (extendStarts (sortByLt ltByStart (extendEnds (sortByLt ltByEnd
      [{ startQ := 0, endQ := 20, uuid := "b", locked := 0 },
       { startQ := 0, endQ := 20, uuid := "a", locked := 0 }]))))) = _
    rw [ht4b, hcomb2]
    rfl
  rw [h2]
  intro hcontra
  have := congrArg (fun x => x.1) hcontra
  simp at this

/-- C9 amended.  Re-merging the output of a merge reproduces the same
segments in the same order with the same permanent flag; each segment keeps
the same set of uuids, but the stored uuid list comes back reversed (the
combining walk prepends each newly absorbed uuid).  So the merge is
idempotent only up to the order of ids inside each output segment. -/
theorem processSegments_remerge_reverses_uuids (l : List RawSegment)
    (hwf : ∀ r ∈ l, r.startQ ≤ r.endQ) :
    processSegments (embedSegments (processSegments l).1 (processSegments l).2) =
      ((processSegments l).1.map (fun seg => { seg with uuids := seg.uuids.reverse }),
        (processSegments l).2) := by
  obtain ⟨hwf4, hsort4, _, _, hlen⟩ := pipeline_t4_spec l hwf
  obtain ⟨s1, s2, s3, _, s5⟩ := combineSegments_spec _ hwf4 hsort4
  have hfst : (processSegments l).1 =
      combineSegments (extendStarts (sortByLt ltByStart (extendEnds (sortByLt ltByEnd l)))) :=
    rfl
  have hsnd : (processSegments l).2 =
      ignoreTTLOf (extendStarts (sortByLt ltByStart (extendEnds (sortByLt ltByEnd l)))) :=
    rfl
  set O := combineSegments (extendStarts (sortByLt ltByStart (extendEnds (sortByLt ltByEnd l))))
    with hO
  set P := ignoreTTLOf (extendStarts (sortByLt ltByStart (extendEnds (sortByLt ltByEnd l))))
    with hP
  have hPempty : O = [] → P = true := by
    intro h
    have ht4nil := s5 h
    rw [hP, ht4nil]
    rfl
  have he1 : sortByLt ltByEnd (embedSegments O P) = embedSegments O P :=
    sortByLt_eq_self ltByEnd _ (embed_chain_endle O P s1 s2)
  have he2 : extendEnds (embedSegments O P) = embedSegments O P :=
    extendEnds_eq_self _ (embed_endH O P s1 s2)
  have he3 : sortByLt ltByStart (embedSegments O P) = embedSegments O P :=
    sortByLt_eq_self ltByStart _ (embed_chain_startle O P s1 s2)
  have he4 : extendStarts (embedSegments O P) = embedSegments O P :=
    extendStarts_eq_self _ (embed_startH O P s1 s2)
  have hwalk : combineSegments (embedSegments O P) =
      O.map (fun seg => { seg with uuids := seg.uuids.reverse }) := by
    unfold combineSegments
    rw [combineFold_embed P O [] (s1.imp (fun h => h)).chain' s2 s3 (by intro a ha; simp at ha)]
    simp
  have hflag : ignoreTTLOf (embedSegments O P) = P :=
    ignoreTTL_embed O P s3 hPempty
  show processSegments (embedSegments O P) = (O.map _, P)
  have hps : processSegments (embedSegments O P) =
      (combineSegments (extendStarts (sortByLt ltByStart (extendEnds (sortByLt ltByEnd
        (embedSegments O P))))),
       ignoreTTLOf (extendStarts (sortByLt ltByStart (extendEnds (sortByLt ltByEnd
        (embedSegments O P)))))) := rfl
  rw [hps, he1, he2, he3, he4, hwalk, hflag]

/-- Witness for C9 amended at the two-record example: the re-merge equals the
first merge with the uuid list of its single output segment reversed. -/
theorem processSegments_remerge_reverses_uuids_witness :
    processSegments (embedSegments
        (processSegments [{ startQ := 0, endQ := 10, uuid := "a", locked := 0 },
          { startQ := 8, endQ := 20, uuid := "b", locked := 1 }]).1
        (processSegments [{ startQ := 0, endQ := 10, uuid := "a", locked := 0 },
          { startQ := 8, endQ := 20, uuid := "b", locked := 1 }]).2) =
      ((processSegments [{ startQ := 0, endQ := 10, uuid := "a", locked := 0 },
          { startQ := 8, endQ := 20, uuid := "b", locked := 1 }]).1.map
          (fun seg => { seg with uuids := seg.uuids.reverse }),
        (processSegments [{ startQ := 0, endQ := 10, uuid := "a", locked := 0 },
          { startQ := 8, endQ := 20, uuid := "b", locked := 1 }]).2) :=
  processSegments_remerge_reverses_uuids _ (by decide)

/-- Witness for C7 at the worked example of the spec: one segment from 5 to 8
and a sample at position 0 selects that segment with target start 5. -/
theorem timeToSegment_selection_spec_witness :
    timeToSegmentSelect [{ startQ := 5, endQ := 8, uuids := ["u1"] }] 0 =
      some ({ startQ := 5, endQ := 8, uuids := ["u1"] }, 5) := by
  have h := timeToSegment_selection_spec
    [{ startQ := 5, endQ := 8, uuids := ["u1"] }] 0 (by decide) (by decide)
  refine ((h.2 (by decide)).1 { startQ := 5, endQ := 8, uuids := ["u1"] } (by simp)
    (by decide) ?_)
  intro t ht hpt
  have : t = { startQ := 5, endQ := 8, uuids := ["u1"] } := by simpa using ht
  rw [this]

end SBTV
